/-
  Verification of the Sudoku solver in Sudoko.py.

  The Python program is embedded shallowly:
  * `parse_grid` over lists of characters (strings become `List Char`),
  * the `SudokuBFS` constructor becomes `scanCells` / `sudokuInit`,
  * `_choose_cell_with_fewest_candidates` becomes `chooseGo` / `chooseCell`,
  * the breadth-first `solve` loop becomes `solveLoopFuel`, a step-indexed
    loop run with a fuel bound that is proved sufficient, so `solve` is
    total and matches the unbounded Python loop exactly.

  Bitmask state is kept as `Nat` with explicit `&&&`, `|||`, `^^^` and the
  nine-bit window `0x1FF`, mirroring the Python integers.
-/
import Mathlib

set_option linter.unusedVariables false
set_option maxRecDepth 8000

/-! ## Utilities from the source -/

/-- `box_index(r, c) = (r // 3) * 3 + (c // 3)` from the source. -/
def box_index (r c : Nat) : Nat := (r / 3) * 3 + (c / 3)

/-- `bit(d) = 1 << (d - 1)` from the source. -/
def bit (d : Nat) : Nat := 1 <<< (d - 1)

/-- Population count of a nine-bit digit mask; models `int.bit_count()`
on the masks used by the solver, which always fit in nine bits. -/
def popcount (m : Nat) : Nat :=
  ((List.range 9).filter (fun i => m.testBit i)).length

/-! ## Grid parsing (`parse_grid`) -/

/-- Base code points of the runs of ten consecutive Unicode decimal digits
(category Nd, Unicode 14.0, as used by CPython 3.11): ASCII `0-9`, then
Arabic-Indic, Devanagari, and the other decimal-digit blocks.  A character
in one of these runs satisfies Python's `str.isdigit` and `int(ch)` returns
its offset in the run. -/
def ndRunBases : List Nat :=
  [0x30, 0x660, 0x6f0, 0x7c0, 0x966, 0x9e6, 0xa66, 0xae6, 0xb66, 0xbe6,
   0xc66, 0xce6, 0xd66, 0xde6, 0xe50, 0xed0, 0xf20, 0x1040, 0x1090, 0x17e0,
   0x1810, 0x1946, 0x19d0, 0x1a80, 0x1a90, 0x1b50, 0x1bb0, 0x1c40, 0x1c50,
   0xa620, 0xa8d0, 0xa900, 0xa9d0, 0xa9f0, 0xaa50, 0xabf0, 0xff10, 0x104a0,
   0x10d30, 0x11066, 0x110f0, 0x11136, 0x111d0, 0x112f0, 0x11450, 0x114d0,
   0x11650, 0x116c0, 0x11730, 0x118e0, 0x11950, 0x11c50, 0x11d50, 0x11da0,
   0x16a60, 0x16ac0, 0x16b50, 0x1d7ce, 0x1d7d8, 0x1d7e2, 0x1d7ec, 0x1d7f6,
   0x1e140, 0x1e2f0, 0x1e950, 0x1fbf0]

/-- Python's `int(ch)` on a single character: the decimal value of a
Unicode decimal digit (category Nd), `none` when `int` raises. -/
def decDigitVal (ch : Char) : Option Nat :=
  (ndRunBases.find? (fun b => b ≤ ch.toNat && ch.toNat < b + 10)).map
    (fun b => ch.toNat - b)

/-- Code points with Unicode property Numeric_Type=Digit that are not
decimal digits (Unicode 14.0): superscripts, circled digits, and so on.
They satisfy `str.isdigit` but `int(ch)` raises `ValueError` on them. -/
def digitOnlyCodes : List Nat :=
  [0xb2, 0xb3, 0xb9, 0x1369, 0x136a, 0x136b, 0x136c, 0x136d, 0x136e,
   0x136f, 0x1370, 0x1371, 0x19da, 0x2070, 0x2074, 0x2075, 0x2076, 0x2077,
   0x2078, 0x2079, 0x2080, 0x2081, 0x2082, 0x2083, 0x2084, 0x2085, 0x2086,
   0x2087, 0x2088, 0x2089, 0x2460, 0x2461, 0x2462, 0x2463, 0x2464, 0x2465,
   0x2466, 0x2467, 0x2468, 0x2474, 0x2475, 0x2476, 0x2477, 0x2478, 0x2479,
   0x247a, 0x247b, 0x247c, 0x2488, 0x2489, 0x248a, 0x248b, 0x248c, 0x248d,
   0x248e, 0x248f, 0x2490, 0x24ea, 0x24f5, 0x24f6, 0x24f7, 0x24f8, 0x24f9,
   0x24fa, 0x24fb, 0x24fc, 0x24fd, 0x24ff, 0x2776, 0x2777, 0x2778, 0x2779,
   0x277a, 0x277b, 0x277c, 0x277d, 0x277e, 0x2780, 0x2781, 0x2782, 0x2783,
   0x2784, 0x2785, 0x2786, 0x2787, 0x2788, 0x278a, 0x278b, 0x278c, 0x278d,
   0x278e, 0x278f, 0x2790, 0x2791, 0x2792, 0x10a40, 0x10a41, 0x10a42,
   0x10a43, 0x10e60, 0x10e61, 0x10e62, 0x10e63, 0x10e64, 0x10e65, 0x10e66,
   0x10e67, 0x10e68, 0x11052, 0x11053, 0x11054, 0x11055, 0x11056, 0x11057,
   0x11058, 0x11059, 0x1105a, 0x1f100, 0x1f101, 0x1f102, 0x1f103, 0x1f104,
   0x1f105, 0x1f106, 0x1f107, 0x1f108, 0x1f109, 0x1f10a]

/-- Python's Unicode-aware `str.isdigit` on a single character: true for
characters of Numeric_Type Decimal (the `ndRunBases` runs) or Digit
(`digitOnlyCodes`). -/
def pyIsDigit (ch : Char) : Bool :=
  (decDigitVal ch).isSome || digitOnlyCodes.contains ch.toNat

/-- The `d = int(ch)` step of `parse_grid` together with the range check:
the decimal value when `ch` is a decimal digit, the explicit range error
for a decimal digit outside 1..9, and the `ValueError` that `int` itself
raises on a digit-but-not-decimal character. -/
def intStep (ch : Char) : Except String Nat :=
  match decDigitVal ch with
  | some d => if 1 ≤ d ∧ d ≤ 9 then .ok d else .error "Digits must be 1..9"
  | none => .error "invalid literal for int() with base 10"

/-- One character of the grid, following the branch structure of the inner
loop of `parse_grid`: blank markers first, then Python's Unicode-aware
digit test and conversion, else an error. -/
def parseCell (ch : Char) : Except String Nat :=
  if ch = '0' ∨ ch = '.' then .ok 0
  else if pyIsDigit ch ∧ ch ≠ '0' then intStep ch
  else .error "Invalid char in grid"

/-- Sequential parse of a flat character list, stopping at the first
invalid character exactly as the Python loop raises. -/
def parseChars : List Char → Except String (List Nat)
  | [] => .ok []
  | ch :: rest =>
    match parseCell ch with
    | .error e => .error e
    | .ok v =>
      match parseChars rest with
      | .error e => .error e
      | .ok vs => .ok (v :: vs)

/-- `parse_grid`: the shape assertion, then a row-major scan of every
character. -/
def parse_grid (grid : List (List Char)) : Except String (List Nat) :=
  if grid.length = 9 ∧ ∀ r ∈ grid, r.length = 9 then
    parseChars grid.flatten
  else .error "Grid must be 9x9"

/-! ## Constructor (`SudokuBFS.__init__`) -/

/-- One search state: the board plus the three used-digit bitmask tables,
modelling the `(board, row_used, col_used, box_used)` tuples of the source. -/
structure SState where
  board : List Nat
  rowU : List Nat
  colU : List Nat
  boxU : List Nat
  deriving DecidableEq, Repr

/-- The constraint-building scan of `__init__`: walk the cells with their
index, reject a digit whose bit is already present in its row, column or
box mask, otherwise set the bit. -/
def scanCells : List Nat → Nat → List Nat → List Nat → List Nat →
    Except String (List Nat × List Nat × List Nat)
  | [], _, ru, cu, bu => .ok (ru, cu, bu)
  | v :: rest, idx, ru, cu, bu =>
    if v = 0 then scanCells rest (idx + 1) ru cu bu
    else
      let r := idx / 9
      let c := idx % 9
      let b := box_index r c
      let m := bit v
      if ru.getD r 0 &&& m ≠ 0 ∨ cu.getD c 0 &&& m ≠ 0 ∨ bu.getD b 0 &&& m ≠ 0 then
        .error "Invalid puzzle: duplicates in row/col/box"
      else
        scanCells rest (idx + 1)
          (ru.set r (ru.getD r 0 ||| m))
          (cu.set c (cu.getD c 0 ||| m))
          (bu.set b (bu.getD b 0 ||| m))

/-- `SudokuBFS.__init__`: length check, then the duplicate-detecting scan
starting from all-zero masks. -/
def sudokuInit (cells : List Nat) : Except String SState :=
  if cells.length = 81 then
    match scanCells cells 0 (List.replicate 9 0) (List.replicate 9 0) (List.replicate 9 0) with
    | .ok (ru, cu, bu) => .ok ⟨cells, ru, cu, bu⟩
    | .error e => .error e
  else .error "Board must have 81 cells"

/-! ## Cell selection (`_choose_cell_with_fewest_candidates`) -/

/-- The candidate mask `(~used) & 0x1FF` of a cell, computed from the three
mask tables exactly as in the source. -/
def candMask (ru cu bu : List Nat) (idx : Nat) : Nat :=
  let r := idx / 9
  let c := idx % 9
  let b := box_index r c
  let used := ru.getD r 0 ||| cu.getD c 0 ||| bu.getD b 0
  (used &&& 0x1FF) ^^^ 0x1FF

/-- The scan loop of `_choose_cell_with_fewest_candidates`: walk the board
suffix holding the current index and the best `(index, mask, count)` so far,
return `(idx, 0)` at the first blank with no candidates, and break at a
one-candidate blank. -/
def chooseGo (ru cu bu : List Nat) : List Nat → Nat → Int → Nat → Nat → Int × Nat
  | [], _, bi, bm, _ => (bi, bm)
  | v :: rest, idx, bi, bm, bc =>
    if v ≠ 0 then chooseGo ru cu bu rest (idx + 1) bi bm bc
    else
      let cand := candMask ru cu bu idx
      if cand = 0 then (Int.ofNat idx, 0)
      else
        let cnt := popcount cand
        if cnt < bc then
          if cnt = 1 then (Int.ofNat idx, cand)
          else chooseGo ru cu bu rest (idx + 1) (Int.ofNat idx) cand cnt
        else chooseGo ru cu bu rest (idx + 1) bi bm bc

/-- `_choose_cell_with_fewest_candidates`: start the scan at index 0 with
best index `-1`, best mask `0` and best count `10`. -/
def chooseCell (board ru cu bu : List Nat) : Int × Nat :=
  chooseGo ru cu bu board 0 (-1) 0 10

/-! ## State expansion and the solve loop -/

/-- Child states generated for the chosen cell: for each digit 1..9 in
ascending order, keep it when its bit is in the candidate mask, re-check it
against the copied masks (the defensive guard of the source), and build the
updated state. -/
def childrenStates (st : SState) (idx cand : Nat) : List SState :=
  (List.range' 1 9).filterMap fun d =>
    let m := bit d
    if cand &&& m = 0 then none
    else
      let r := idx / 9
      let c := idx % 9
      let b := box_index r c
      if st.rowU.getD r 0 &&& m ≠ 0 ∨ st.colU.getD c 0 &&& m ≠ 0 ∨ st.boxU.getD b 0 &&& m ≠ 0 then
        none
      else
        some ⟨st.board.set idx d,
              st.rowU.set r (st.rowU.getD r 0 ||| m),
              st.colU.set c (st.colU.getD c 0 ||| m),
              st.boxU.set b (st.boxU.getD b 0 ||| m)⟩

/-- Number of blank cells of a board. -/
def countBlanks (b : List Nat) : Nat := b.countP (fun v => v == 0)

/-- Weight of a state for the loop-variant: `10 ^ blanks`. -/
def stateWeight (st : SState) : Nat := 10 ^ countBlanks st.board

/-- Loop variant of the whole frontier: the sum of the state weights. -/
def queueMeasure (q : List SState) : Nat := (q.map stateWeight).sum

/-- The `while q:` loop of `solve`, step-indexed: `none` means the fuel ran
out (proved unreachable below), `some none` is the "no solution" exit, and
`some (some b)` returns the solved board.  Each iteration pops the front
state, runs cell selection, and either succeeds, discards a dead state, or
appends all child states to the back of the frontier. -/
def solveLoopFuel : Nat → List SState → Option (Option (List Nat))
  | 0, _ => none
  | _ + 1, [] => some none
  | fuel + 1, st :: rest =>
    let pick := chooseCell st.board st.rowU st.colU st.boxU
    if pick.1 = -1 then some (some st.board)
    else if pick.2 = 0 then solveLoopFuel fuel rest
    else solveLoopFuel fuel (rest ++ childrenStates st pick.1.toNat pick.2)

/-- `SudokuBFS.solve`: the quick already-solved check, then the frontier
loop seeded with the initial state, run with a provably sufficient fuel. -/
def solve (st : SState) : Option (List Nat) :=
  if st.board.all (fun v => v != 0) then some st.board
  else
    match solveLoopFuel (queueMeasure [st] + 1) [st] with
    | some r => r
    | none => none

/-! ## Bitmask lemmas -/

theorem bit_eq_two_pow (d : Nat) : bit d = 2 ^ (d - 1) := by
  simp [bit, Nat.shiftLeft_eq]

theorem testBit_bit (d k : Nat) : (bit d).testBit k = decide (d - 1 = k) := by
  rw [bit_eq_two_pow, Nat.testBit_two_pow]

theorem and_bit_ne_zero {x d : Nat} : x &&& bit d ≠ 0 ↔ x.testBit (d - 1) = true := by
  constructor
  · intro h
    obtain ⟨k, hk⟩ := Nat.ne_zero_implies_bit_true h
    rw [Nat.testBit_and, testBit_bit] at hk
    simp only [Bool.and_eq_true, decide_eq_true_eq] at hk
    rcases hk with ⟨h1, h2⟩
    rw [h2]
    exact h1
  · intro h h0
    have hb : (x &&& bit d).testBit (d - 1) = true := by
      rw [Nat.testBit_and, testBit_bit]
      simp [h]
    rw [h0, Nat.zero_testBit] at hb
    exact Bool.noConfusion hb

theorem candMask_testBit (ru cu bu : List Nat) (idx k : Nat) :
    (candMask ru cu bu idx).testBit k =
      (decide (k < 9) && !((ru.getD (idx / 9) 0 ||| cu.getD (idx % 9) 0 |||
        bu.getD (box_index (idx / 9) (idx % 9)) 0).testBit k)) := by
  have h511 : (0x1FF : Nat) = 2 ^ 9 - 1 := by norm_num
  simp only [candMask, h511, Nat.testBit_xor, Nat.testBit_and, Nat.testBit_two_pow_sub_one]
  by_cases hk : k < 9 <;>
    cases hu : (ru.getD (idx / 9) 0 ||| cu.getD (idx % 9) 0 |||
      bu.getD (box_index (idx / 9) (idx % 9)) 0).testBit k <;>
    simp [hk, hu]

theorem candMask_lt (ru cu bu : List Nat) (idx : Nat) : candMask ru cu bu idx < 512 := by
  have h1 : (candMask ru cu bu idx) < 2 ^ 9 := by
    apply Nat.xor_lt_two_pow
    · exact Nat.lt_succ_of_le (by simpa using Nat.and_le_right)
    · norm_num
  simpa using h1

theorem popcount_le_nine (m : Nat) : popcount m ≤ 9 := by
  have := List.length_filter_le (fun i => m.testBit i) (List.range 9)
  simpa [popcount] using this

theorem popcount_eq_zero_iff {m : Nat} (hm : m < 512) : popcount m = 0 ↔ m = 0 := by
  constructor
  · intro h
    have hnil : ∀ i ∈ List.range 9, ¬ m.testBit i = true := by
      have := List.length_eq_zero.mp h
      intro i hi hbit
      have : i ∈ (List.range 9).filter (fun i => m.testBit i) :=
        List.mem_filter.mpr ⟨hi, hbit⟩
      rw [List.length_eq_zero.mp h] at this
      exact List.not_mem_nil i this
    apply Nat.eq_of_testBit_eq
    intro i
    rw [Nat.zero_testBit]
    by_cases hi : i < 9
    · exact Bool.eq_false_iff.mpr (hnil i (List.mem_range.mpr hi))
    · apply Nat.testBit_lt_two_pow
      calc m < 512 := hm
        _ = 2 ^ 9 := by norm_num
        _ ≤ 2 ^ i := Nat.pow_le_pow_right (by norm_num) (by omega)
  · intro h
    simp [popcount, h]

theorem popcount_pos {m : Nat} (hm : m < 512) (h : m ≠ 0) : 1 ≤ popcount m := by
  rcases Nat.eq_zero_or_pos (popcount m) with h0 | h1
  · exact absurd ((popcount_eq_zero_iff hm).mp h0) h
  · exact h1

/-! ## List access helpers -/

theorem getD_set_self (l : List Nat) (i x : Nat) (h : i < l.length) :
    (l.set i x).getD i 0 = x := by
  simp [List.getD_eq_getElem?_getD, List.getElem?_set_self h]

theorem getD_set_ne (l : List Nat) {i j : Nat} (x : Nat) (h : i ≠ j) :
    (l.set i x).getD j 0 = l.getD j 0 := by
  simp [List.getD_eq_getElem?_getD, List.getElem?_set_ne h]

theorem drop_step {L : List Nat} {i v : Nat} {rest : List Nat}
    (h : L.drop i = v :: rest) :
    i < L.length ∧ L.getD i 0 = v ∧ L.drop (i + 1) = rest := by
  have hlen : L.length - i = rest.length + 1 := by
    have := congrArg List.length h
    simpa [List.length_drop] using this
  refine ⟨by omega, ?_, ?_⟩
  · have h0 : (L.drop i)[0]? = some v := by rw [h]; simp
    rw [List.getElem?_drop] at h0
    simp only [Nat.add_zero] at h0
    simp [List.getD_eq_getElem?_getD, h0]
  · have := congrArg (List.drop 1) h
    rw [List.drop_drop] at this
    simpa [Nat.add_comm] using this

/-! ## Characterization of the cell-selection scan -/

/-- Invariant carried by the accumulator of `chooseGo`: either nothing has
been selected yet (and every cell already scanned is filled), or the best
cell so far is a scanned blank with its candidate mask and count. -/
def AccInv (ru cu bu full : List Nat) (idx : Nat) (bi : Int) (bm bc : Nat) : Prop :=
  (bi = -1 ∧ bm = 0 ∧ bc = 10 ∧ ∀ j, j < idx → full.getD j 0 ≠ 0) ∨
  (∃ j, j < idx ∧ j < full.length ∧ bi = Int.ofNat j ∧ full.getD j 0 = 0 ∧
    bm = candMask ru cu bu j ∧ bm ≠ 0 ∧ bc = popcount bm)

theorem chooseGo_nil (ru cu bu : List Nat) (idx : Nat) (bi : Int) (bm bc : Nat) :
    chooseGo ru cu bu [] idx bi bm bc = (bi, bm) := rfl

theorem chooseGo_cons (ru cu bu : List Nat) (v : Nat) (rest : List Nat)
    (idx : Nat) (bi : Int) (bm bc : Nat) :
    chooseGo ru cu bu (v :: rest) idx bi bm bc =
      if v ≠ 0 then chooseGo ru cu bu rest (idx + 1) bi bm bc
      else if candMask ru cu bu idx = 0 then (Int.ofNat idx, 0)
      else if popcount (candMask ru cu bu idx) < bc then
        if popcount (candMask ru cu bu idx) = 1 then
          (Int.ofNat idx, candMask ru cu bu idx)
        else chooseGo ru cu bu rest (idx + 1) (Int.ofNat idx)
          (candMask ru cu bu idx) (popcount (candMask ru cu bu idx))
      else chooseGo ru cu bu rest (idx + 1) bi bm bc := rfl

theorem chooseGo_shape (ru cu bu full : List Nat) (l : List Nat) :
    ∀ (idx : Nat) (bi : Int) (bm bc : Nat),
      full.drop idx = l → AccInv ru cu bu full idx bi bm bc →
      (chooseGo ru cu bu l idx bi bm bc = (-1, 0) ∧
        ∀ j, j < full.length → full.getD j 0 ≠ 0) ∨
      (∃ i, chooseGo ru cu bu l idx bi bm bc = (Int.ofNat i, candMask ru cu bu i) ∧
        i < full.length ∧ full.getD i 0 = 0) := by
  induction l with
  | nil =>
    intro idx bi bm bc hl hacc
    have hle : full.length ≤ idx := by
      have := congrArg List.length hl
      simp [List.length_drop] at this
      omega
    rcases hacc with ⟨hbi, hbm, _, hall⟩ | ⟨j, _, hjlen, hbi, hj0, hbm, hne, _⟩
    · left
      refine ⟨?_, fun j hj => hall j (by omega)⟩
      rw [chooseGo_nil, hbi, hbm]
    · right
      refine ⟨j, ?_, hjlen, hj0⟩
      rw [chooseGo_nil, hbi, hbm]
  | cons v rest ih =>
    intro idx bi bm bc hl hacc
    obtain ⟨hidx, hv, hrest⟩ := drop_step hl
    rw [chooseGo_cons]
    by_cases hv0 : v = 0
    · subst hv0
      rw [if_neg (by simp)]
      by_cases hcand : candMask ru cu bu idx = 0
      · rw [if_pos hcand]
        right
        refine ⟨idx, ?_, hidx, hv⟩
        rw [hcand]
      · rw [if_neg hcand]
        by_cases hlt : popcount (candMask ru cu bu idx) < bc
        · rw [if_pos hlt]
          by_cases hone : popcount (candMask ru cu bu idx) = 1
          · rw [if_pos hone]
            right
            exact ⟨idx, rfl, hidx, hv⟩
          · rw [if_neg hone]
            apply ih (idx + 1) _ _ _ hrest
            right
            exact ⟨idx, by omega, hidx, rfl, hv, rfl, hcand, rfl⟩
        · rw [if_neg hlt]
          apply ih (idx + 1) _ _ _ hrest
          rcases hacc with ⟨hbi, hbm, hbc, hall⟩ | hacc2
          · exfalso
            have := popcount_le_nine (candMask ru cu bu idx)
            omega
          · right
            obtain ⟨j, hj, hrest2⟩ := hacc2
            exact ⟨j, by omega, hrest2⟩
    · rw [if_pos hv0]
      apply ih (idx + 1) _ _ _ hrest
      rcases hacc with ⟨hbi, hbm, hbc, hall⟩ | hacc2
      · left
        refine ⟨hbi, hbm, hbc, fun j hj => ?_⟩
        rcases Nat.lt_or_ge j idx with h | h
        · exact hall j h
        · have : j = idx := by omega
          rw [this, hv]
          exact hv0
      · right
        obtain ⟨j, hj, hrest2⟩ := hacc2
        exact ⟨j, by omega, hrest2⟩

theorem chooseCell_shape (board ru cu bu : List Nat) :
    (chooseCell board ru cu bu = (-1, 0) ∧
      ∀ j, j < board.length → board.getD j 0 ≠ 0) ∨
    (∃ i, chooseCell board ru cu bu = (Int.ofNat i, candMask ru cu bu i) ∧
      i < board.length ∧ board.getD i 0 = 0) := by
  have := chooseGo_shape ru cu bu board board 0 (-1) 0 10 (by simp)
    (Or.inl ⟨rfl, rfl, rfl, fun j hj => absurd hj (by omega)⟩)
  exact this

theorem chooseCell_eq_neg_one {board ru cu bu : List Nat} {m : Nat}
    (h : chooseCell board ru cu bu = (-1, m)) :
    ∀ j, j < board.length → board.getD j 0 ≠ 0 := by
  rcases chooseCell_shape board ru cu bu with ⟨heq, hall⟩ | ⟨i, heq, _, _⟩
  · exact hall
  · rw [heq] at h
    have h2 : (i : Int) = -1 := congrArg Prod.fst h
    exfalso
    omega

theorem chooseCell_eq_pos {board ru cu bu : List Nat} {i m : Nat}
    (h : chooseCell board ru cu bu = (Int.ofNat i, m)) :
    i < board.length ∧ board.getD i 0 = 0 ∧ m = candMask ru cu bu i := by
  rcases chooseCell_shape board ru cu bu with ⟨heq, _⟩ | ⟨i2, heq, hlen, h0⟩
  · rw [heq] at h
    have h2 : (-1 : Int) = (i : Int) := congrArg Prod.fst h
    exfalso
    omega
  · rw [heq] at h
    have h1 : (i2 : Int) = (i : Int) := congrArg Prod.fst h
    have h2 : candMask ru cu bu i2 = m := congrArg Prod.snd h
    have : i2 = i := by omega
    subst this
    exact ⟨hlen, h0, h2.symm⟩

/-! ## MRV minimality of the selection -/

/-- Accumulator invariant for the minimality proof: either no blank has been
scanned, or the best so far is the first blank of minimal candidate count
among the scanned blanks, and that count is at least two (a count of one
stops the scan at once). -/
def MrvAcc (ru cu bu full : List Nat) (idx : Nat) (bi : Int) (bm bc : Nat) : Prop :=
  (bi = -1 ∧ bm = 0 ∧ bc = 10 ∧ ∀ j, j < idx → full.getD j 0 ≠ 0) ∨
  (∃ j, j < idx ∧ j < full.length ∧ bi = Int.ofNat j ∧ full.getD j 0 = 0 ∧
    bm = candMask ru cu bu j ∧ bm ≠ 0 ∧ bc = popcount bm ∧ 2 ≤ bc ∧
    (∀ k, k < idx → full.getD k 0 = 0 → bc ≤ popcount (candMask ru cu bu k)) ∧
    (∀ k, k < j → full.getD k 0 = 0 → bc < popcount (candMask ru cu bu k)))

theorem chooseGo_mrv (ru cu bu full : List Nat) (l : List Nat)
    (hne : ∀ j, j < full.length → full.getD j 0 = 0 → candMask ru cu bu j ≠ 0) :
    ∀ (idx : Nat) (bi : Int) (bm bc : Nat),
      full.drop idx = l → MrvAcc ru cu bu full idx bi bm bc →
      (∃ j, j < full.length ∧ full.getD j 0 = 0) →
      ∃ i, chooseGo ru cu bu l idx bi bm bc = (Int.ofNat i, candMask ru cu bu i) ∧
        i < full.length ∧ full.getD i 0 = 0 ∧
        (∀ j, j < full.length → full.getD j 0 = 0 →
          popcount (candMask ru cu bu i) ≤ popcount (candMask ru cu bu j)) ∧
        (∀ j, j < i → full.getD j 0 = 0 →
          popcount (candMask ru cu bu i) < popcount (candMask ru cu bu j)) := by
  induction l with
  | nil =>
    intro idx bi bm bc hl hacc hex
    have hle : full.length ≤ idx := by
      have := congrArg List.length hl
      simp [List.length_drop] at this
      omega
    rcases hacc with ⟨_, _, _, hall⟩ | ⟨j, _, hjlen, hbi, hj0, hbm, hne2, hbc, _, hmin, hfirst⟩
    · obtain ⟨j, hjl, hj0⟩ := hex
      exact absurd hj0 (hall j (by omega))
    · rw [hbm] at hbc
      refine ⟨j, ?_, hjlen, hj0, ?_, ?_⟩
      · rw [chooseGo_nil, hbi, hbm]
      · intro k hk hk0
        have := hmin k (by omega) hk0
        omega
      · intro k hk hk0
        have := hfirst k hk hk0
        omega
  | cons v rest ih =>
    intro idx bi bm bc hl hacc hex
    obtain ⟨hidx, hv, hrest⟩ := drop_step hl
    rw [chooseGo_cons]
    by_cases hv0 : v = 0
    · subst hv0
      have hblank : full.getD idx 0 = 0 := hv
      have hcand : candMask ru cu bu idx ≠ 0 := hne idx hidx hblank
      have hcnt1 : 1 ≤ popcount (candMask ru cu bu idx) :=
        popcount_pos (candMask_lt ru cu bu idx) hcand
      rw [if_neg (by simp), if_neg hcand]
      by_cases hlt : popcount (candMask ru cu bu idx) < bc
      · rw [if_pos hlt]
        by_cases hone : popcount (candMask ru cu bu idx) = 1
        · rw [if_pos hone]
          refine ⟨idx, rfl, hidx, hblank, ?_, ?_⟩
          · intro k hk hk0
            have := popcount_pos (candMask_lt ru cu bu k) (hne k hk hk0)
            omega
          · intro k hk hk0
            rcases hacc with ⟨_, _, hbc, hall⟩ | ⟨j, _, _, _, _, _, _, hbc, h2, hmin, _⟩
            · exact absurd hk0 (hall k hk)
            · have := hmin k hk hk0
              omega
        · rw [if_neg hone]
          apply ih (idx + 1) _ _ _ hrest _ hex
          right
          refine ⟨idx, by omega, hidx, rfl, hblank, rfl, hcand, rfl, by omega, ?_, ?_⟩
          · intro k hk hk0
            rcases Nat.lt_or_ge k idx with h | h
            · rcases hacc with ⟨_, _, hbc, hall⟩ | ⟨j, _, _, _, _, _, _, hbc, h2, hmin, _⟩
              · exact absurd hk0 (hall k h)
              · have := hmin k h hk0
                omega
            · have : k = idx := by omega
              subst this
              omega
          · intro k hk hk0
            rcases hacc with ⟨_, _, hbc, hall⟩ | ⟨j, _, _, _, _, _, _, hbc, h2, hmin, _⟩
            · exact absurd hk0 (hall k hk)
            · have := hmin k hk hk0
              omega
      · rw [if_neg hlt]
        apply ih (idx + 1) _ _ _ hrest _ hex
        rcases hacc with ⟨_, _, hbc, hall⟩ | ⟨j, hj, hjlen, hbi, hj0, hbm, hne2, hbc, h2, hmin, hfirst⟩
        · exfalso
          have := popcount_le_nine (candMask ru cu bu idx)
          omega
        · right
          refine ⟨j, by omega, hjlen, hbi, hj0, hbm, hne2, hbc, h2, ?_, hfirst⟩
          intro k hk hk0
          rcases Nat.lt_or_ge k idx with h | h
          · exact hmin k h hk0
          · have : k = idx := by omega
            subst this
            omega
    · rw [if_pos hv0]
      apply ih (idx + 1) _ _ _ hrest _ hex
      rcases hacc with ⟨hbi, hbm, hbc, hall⟩ | ⟨j, hj, hjlen, hbi, hj0, hbm, hne2, hbc, h2, hmin, hfirst⟩
      · left
        refine ⟨hbi, hbm, hbc, fun k hk => ?_⟩
        rcases Nat.lt_or_ge k idx with h | h
        · exact hall k h
        · have : k = idx := by omega
          subst this
          rw [hv]
          exact hv0
      · right
        refine ⟨j, by omega, hjlen, hbi, hj0, hbm, hne2, hbc, h2, ?_, hfirst⟩
        intro k hk hk0
        rcases Nat.lt_or_ge k idx with h | h
        · exact hmin k h hk0
        · have : k = idx := by omega
          subst this
          rw [hv] at hk0
          exact absurd hk0 hv0

/-- The top-level MRV property of `_choose_cell_with_fewest_candidates`:
on a board with at least one blank in which no blank is a dead end, the
scan returns the first blank cell of globally minimal candidate count,
together with its candidate mask. -/
theorem chooseCell_mrv {board ru cu bu : List Nat}
    (hne : ∀ j, j < board.length → board.getD j 0 = 0 → candMask ru cu bu j ≠ 0)
    (hex : ∃ j, j < board.length ∧ board.getD j 0 = 0) :
    ∃ i, chooseCell board ru cu bu = (Int.ofNat i, candMask ru cu bu i) ∧
      i < board.length ∧ board.getD i 0 = 0 ∧
      (∀ j, j < board.length → board.getD j 0 = 0 →
        popcount (candMask ru cu bu i) ≤ popcount (candMask ru cu bu j)) ∧
      (∀ j, j < i → board.getD j 0 = 0 →
        popcount (candMask ru cu bu i) < popcount (candMask ru cu bu j)) := by
  exact chooseGo_mrv ru cu bu board board hne 0 (-1) 0 10 (by simp)
    (Or.inl ⟨rfl, rfl, rfl, fun j hj => absurd hj (by omega)⟩) hex

/-! ## Dead-end reporting of the selection -/

/-- If the row-major scan reaches a blank with an empty candidate set before
any blank with exactly one candidate, it returns that cell with mask `0`. -/
theorem chooseGo_first_dead (ru cu bu full : List Nat) (l : List Nat) :
    ∀ (idx : Nat) (bi : Int) (bm bc : Nat),
      full.drop idx = l →
      ∀ i0, idx ≤ i0 → i0 < full.length → full.getD i0 0 = 0 →
        candMask ru cu bu i0 = 0 →
        (∀ j, idx ≤ j → j < i0 → full.getD j 0 = 0 →
          candMask ru cu bu j ≠ 0 ∧ popcount (candMask ru cu bu j) ≠ 1) →
        chooseGo ru cu bu l idx bi bm bc = (Int.ofNat i0, 0) := by
  induction l with
  | nil =>
    intro idx bi bm bc hl i0 hle hi0 _ _ _
    exfalso
    have := congrArg List.length hl
    simp [List.length_drop] at this
    omega
  | cons v rest ih =>
    intro idx bi bm bc hl i0 hle hi0 h0 hcand0 hpre
    obtain ⟨hidx, hv, hrest⟩ := drop_step hl
    rw [chooseGo_cons]
    rcases Nat.eq_or_lt_of_le hle with heq | hlt
    · subst heq
      rw [if_neg (by simp [hv.symm.trans h0]), if_pos hcand0]
    · by_cases hv0 : v = 0
      · subst hv0
        have hblank : full.getD idx 0 = 0 := hv
        obtain ⟨hc, h1⟩ := hpre idx (by omega) hlt hblank
        rw [if_neg (by simp), if_neg hc]
        by_cases hbc : popcount (candMask ru cu bu idx) < bc
        · rw [if_pos hbc, if_neg h1]
          exact ih (idx + 1) _ _ _ hrest i0 (by omega) hi0 h0 hcand0
            (fun j hj1 hj2 hj3 => hpre j (by omega) hj2 hj3)
        · rw [if_neg hbc]
          exact ih (idx + 1) _ _ _ hrest i0 (by omega) hi0 h0 hcand0
            (fun j hj1 hj2 hj3 => hpre j (by omega) hj2 hj3)
      · rw [if_pos hv0]
        exact ih (idx + 1) _ _ _ hrest i0 (by omega) hi0 h0 hcand0
          (fun j hj1 hj2 hj3 => hpre j (by omega) hj2 hj3)

theorem chooseCell_first_dead {board ru cu bu : List Nat} {i0 : Nat}
    (hi0 : i0 < board.length) (h0 : board.getD i0 0 = 0)
    (hcand0 : candMask ru cu bu i0 = 0)
    (hpre : ∀ j, j < i0 → board.getD j 0 = 0 →
      candMask ru cu bu j ≠ 0 ∧ popcount (candMask ru cu bu j) ≠ 1) :
    chooseCell board ru cu bu = (Int.ofNat i0, 0) :=
  chooseGo_first_dead ru cu bu board board 0 (-1) 0 10 (by simp) i0
    (by omega) hi0 h0 hcand0 (fun j _ hj2 hj3 => hpre j hj2 hj3)

/-! ## The defensive guard of the expansion is unreachable -/

/-- Any digit whose bit lies in a cell's candidate mask is absent from the
row, column and box masks of that cell. -/
theorem candMask_bit_not_used {ru cu bu : List Nat} {idx d : Nat}
    (hd1 : 1 ≤ d) (hd9 : d ≤ 9)
    (hbit : candMask ru cu bu idx &&& bit d ≠ 0) :
    ¬(ru.getD (idx / 9) 0 &&& bit d ≠ 0 ∨ cu.getD (idx % 9) 0 &&& bit d ≠ 0 ∨
      bu.getD (box_index (idx / 9) (idx % 9)) 0 &&& bit d ≠ 0) := by
  have htest := and_bit_ne_zero.mp hbit
  rw [candMask_testBit] at htest
  simp only [Bool.and_eq_true, decide_eq_true_eq, Bool.not_eq_true'] at htest
  rcases htest with ⟨_, hused⟩
  rw [Nat.testBit_or, Nat.testBit_or] at hused
  simp only [Bool.or_eq_false_iff] at hused
  rcases hused with ⟨⟨hr, hc⟩, hb⟩
  intro hcon
  rcases hcon with h | h | h
  · have hx := and_bit_ne_zero.mp h
    rw [hr] at hx
    exact Bool.noConfusion hx
  · have hx := and_bit_ne_zero.mp h
    rw [hc] at hx
    exact Bool.noConfusion hx
  · have hx := and_bit_ne_zero.mp h
    rw [hb] at hx
    exact Bool.noConfusion hx

/-! ## Blank counting -/

theorem getD_eq_getElem {l : List Nat} {i : Nat} (h : i < l.length) :
    l.getD i 0 = l[i] := by
  simp [List.getD_eq_getElem?_getD, List.getElem?_eq_getElem h]

theorem countBlanks_set {b : List Nat} {i d : Nat}
    (hi : i < b.length) (h0 : b.getD i 0 = 0) (hd : d ≠ 0) :
    countBlanks (b.set i d) + 1 = countBlanks b := by
  induction b generalizing i with
  | nil => simp at hi
  | cons x rest ih =>
    cases i with
    | zero =>
      have hx : x = 0 := by simpa [List.getD] using h0
      subst hx
      simp [countBlanks, List.countP_cons, hd]
    | succ n =>
      have hn : n < rest.length := by simpa using hi
      have h0n : rest.getD n 0 = 0 := by simpa [List.getD] using h0
      have := ih hn h0n
      simp only [List.set_cons_succ, countBlanks, List.countP_cons] at *
      omega

theorem countBlanks_pos {b : List Nat} {i : Nat}
    (hi : i < b.length) (h0 : b.getD i 0 = 0) : 1 ≤ countBlanks b := by
  have hmem : (0 : Nat) ∈ b := by
    rw [getD_eq_getElem hi] at h0
    rw [← h0]
    exact List.getElem_mem hi
  have : 0 < b.countP (fun v => v == 0) :=
    List.countP_pos_iff.mpr ⟨0, hmem, by simp⟩
  simpa [countBlanks] using this

/-! ## Child states -/

theorem mem_childrenStates {st : SState} {idx cand : Nat} {ch : SState} :
    ch ∈ childrenStates st idx cand ↔
    ∃ d, 1 ≤ d ∧ d ≤ 9 ∧ cand &&& bit d ≠ 0 ∧
      ¬(st.rowU.getD (idx / 9) 0 &&& bit d ≠ 0 ∨
        st.colU.getD (idx % 9) 0 &&& bit d ≠ 0 ∨
        st.boxU.getD (box_index (idx / 9) (idx % 9)) 0 &&& bit d ≠ 0) ∧
      ch = ⟨st.board.set idx d,
            st.rowU.set (idx / 9) (st.rowU.getD (idx / 9) 0 ||| bit d),
            st.colU.set (idx % 9) (st.colU.getD (idx % 9) 0 ||| bit d),
            st.boxU.set (box_index (idx / 9) (idx % 9))
              (st.boxU.getD (box_index (idx / 9) (idx % 9)) 0 ||| bit d)⟩ := by
  constructor
  · intro h
    rw [childrenStates, List.mem_filterMap] at h
    obtain ⟨d, hd, heq⟩ := h
    rw [List.mem_range'] at hd
    obtain ⟨k, hk, hdk⟩ := hd
    have hd1 : 1 ≤ d := by omega
    have hd9 : d ≤ 9 := by omega
    by_cases h1 : cand &&& bit d = 0
    · rw [if_pos h1] at heq
      exact absurd heq (by simp)
    · rw [if_neg h1] at heq
      by_cases h2 : st.rowU.getD (idx / 9) 0 &&& bit d ≠ 0 ∨
          st.colU.getD (idx % 9) 0 &&& bit d ≠ 0 ∨
          st.boxU.getD (box_index (idx / 9) (idx % 9)) 0 &&& bit d ≠ 0
      · rw [if_pos h2] at heq
        exact absurd heq (by simp)
      · rw [if_neg h2] at heq
        simp only [Option.some.injEq] at heq
        exact ⟨d, hd1, hd9, h1, h2, heq.symm⟩
  · intro ⟨d, hd1, hd9, h1, h2, heq⟩
    rw [childrenStates, List.mem_filterMap]
    refine ⟨d, List.mem_range'.mpr ⟨d - 1, by omega, by omega⟩, ?_⟩
    rw [if_neg h1, if_neg h2, heq]

theorem childrenStates_board {st : SState} {idx cand : Nat} {ch : SState}
    (h : ch ∈ childrenStates st idx cand) :
    ∃ d, 1 ≤ d ∧ d ≤ 9 ∧ ch.board = st.board.set idx d := by
  obtain ⟨d, hd1, hd9, _, _, heq⟩ := mem_childrenStates.mp h
  exact ⟨d, hd1, hd9, by rw [heq]⟩

theorem length_childrenStates (st : SState) (idx cand : Nat) :
    (childrenStates st idx cand).length ≤ 9 := by
  unfold childrenStates
  exact le_trans (List.length_filterMap_le _ _) (by simp)

/-! ## The loop variant -/

theorem queueMeasure_cons (st : SState) (q : List SState) :
    queueMeasure (st :: q) = stateWeight st + queueMeasure q := by
  simp [queueMeasure]

theorem queueMeasure_append (q1 q2 : List SState) :
    queueMeasure (q1 ++ q2) = queueMeasure q1 + queueMeasure q2 := by
  simp [queueMeasure]

theorem sum_le_length_mul (l : List Nat) (n : Nat) (h : ∀ x ∈ l, x ≤ n) :
    l.sum ≤ l.length * n := by
  induction l with
  | nil => simp
  | cons x rest ih =>
    have hx := h x (by simp)
    have hr := ih (fun y hy => h y (by simp [hy]))
    simp only [List.sum_cons, List.length_cons]
    calc x + rest.sum ≤ n + rest.length * n := by omega
      _ = (rest.length + 1) * n := by ring

theorem stateWeight_pos (st : SState) : 1 ≤ stateWeight st := by
  unfold stateWeight
  exact Nat.one_le_pow _ _ (by norm_num)

theorem childrenStates_measure {st : SState} {idx cand : Nat}
    (hi : idx < st.board.length) (h0 : st.board.getD idx 0 = 0) :
    queueMeasure (childrenStates st idx cand) < stateWeight st := by
  have hpos : 1 ≤ countBlanks st.board := countBlanks_pos hi h0
  have hbound : ∀ w ∈ (childrenStates st idx cand).map stateWeight,
      w ≤ 10 ^ (countBlanks st.board - 1) := by
    intro w hw
    rw [List.mem_map] at hw
    obtain ⟨ch, hch, hwch⟩ := hw
    obtain ⟨d, hd1, _, hb⟩ := childrenStates_board hch
    have := countBlanks_set hi h0 (by omega : d ≠ 0)
    rw [← hwch, stateWeight, hb]
    have : countBlanks (st.board.set idx d) = countBlanks st.board - 1 := by omega
    rw [this]
  have hsum := sum_le_length_mul _ _ hbound
  have hlen : ((childrenStates st idx cand).map stateWeight).length ≤ 9 := by
    rw [List.length_map]
    exact length_childrenStates st idx cand
  have h9 : ((childrenStates st idx cand).map stateWeight).sum ≤
      9 * 10 ^ (countBlanks st.board - 1) := by
    calc ((childrenStates st idx cand).map stateWeight).sum
        ≤ ((childrenStates st idx cand).map stateWeight).length *
            10 ^ (countBlanks st.board - 1) := hsum
      _ ≤ 9 * 10 ^ (countBlanks st.board - 1) :=
          Nat.mul_le_mul_right _ hlen
  have hlt : 9 * 10 ^ (countBlanks st.board - 1) < 10 ^ countBlanks st.board := by
    obtain ⟨k, hk⟩ : ∃ k, countBlanks st.board = k + 1 := ⟨countBlanks st.board - 1, by omega⟩
    rw [hk]
    have h2 : k + 1 - 1 = k := by omega
    rw [h2, pow_succ]
    have hp : 1 ≤ 10 ^ k := Nat.one_le_pow _ _ (by norm_num)
    omega
  calc queueMeasure (childrenStates st idx cand)
      = ((childrenStates st idx cand).map stateWeight).sum := rfl
    _ ≤ 9 * 10 ^ (countBlanks st.board - 1) := h9
    _ < 10 ^ countBlanks st.board := hlt
    _ = stateWeight st := rfl

theorem solveLoopFuel_cons (fuel : Nat) (st : SState) (rest : List SState) :
    solveLoopFuel (fuel + 1) (st :: rest) =
      if (chooseCell st.board st.rowU st.colU st.boxU).1 = -1 then some (some st.board)
      else if (chooseCell st.board st.rowU st.colU st.boxU).2 = 0 then
        solveLoopFuel fuel rest
      else solveLoopFuel fuel (rest ++ childrenStates st
        (chooseCell st.board st.rowU st.colU st.boxU).1.toNat
        (chooseCell st.board st.rowU st.colU st.boxU).2) := rfl

/-- Fuel sufficiency: with fuel exceeding the queue variant, the loop never
runs out of fuel — this is the termination argument of the frontier search.
Every expansion replaces a state by at most nine children, each with one
blank fewer, so the variant strictly decreases at every iteration. -/
theorem solveLoopFuel_ne_none : ∀ (fuel : Nat) (q : List SState),
    queueMeasure q < fuel → solveLoopFuel fuel q ≠ none := by
  intro fuel
  induction fuel with
  | zero => intro q h; omega
  | succ f ih =>
    intro q h
    cases q with
    | nil => simp [solveLoopFuel]
    | cons st rest =>
      rw [solveLoopFuel_cons]
      rcases hc : chooseCell st.board st.rowU st.colU st.boxU with ⟨idx, cand⟩
      rw [queueMeasure_cons] at h
      have hw : 1 ≤ stateWeight st := stateWeight_pos st
      by_cases h1 : idx = -1
      · simp [hc, h1]
      · rcases chooseCell_shape st.board st.rowU st.colU st.boxU with
          ⟨heq, _⟩ | ⟨i, heq, hlen, h0⟩
        · rw [hc] at heq
          exact absurd (congrArg Prod.fst heq) (by simpa using h1)
        · rw [hc] at heq
          have hidx : idx = Int.ofNat i := congrArg Prod.fst heq
          have hcand : cand = candMask st.rowU st.colU st.boxU i :=
            congrArg Prod.snd heq
          by_cases h2 : cand = 0
          · simp only [hc, if_neg h1, if_pos h2]
            apply ih
            omega
          · simp only [hc, if_neg h1, if_neg h2]
            apply ih
            rw [queueMeasure_append]
            have htn : (idx.toNat) = i := by rw [hidx]; rfl
            rw [htn]
            have := @childrenStates_measure st i cand hlen h0
            omega

/-! ## Cell geometry -/

/-- Row of a flat cell index. -/
def cellRow (i : Nat) : Nat := i / 9

/-- Column of a flat cell index. -/
def cellCol (i : Nat) : Nat := i % 9

/-- Box of a flat cell index, via `box_index`. -/
def cellBox (i : Nat) : Nat := box_index (i / 9) (i % 9)

/-- Flat index of the `t`-th cell (row-major) of box `b`. -/
def boxCellIdx (b t : Nat) : Nat :=
  ((b / 3) * 3 + t / 3) * 9 + ((b % 3) * 3 + t % 3)

theorem pos_row_col {i : Nat} (h : i < 81) : (i / 9) * 9 + i % 9 = i := by omega

theorem cellRow_lt {i : Nat} (h : i < 81) : i / 9 < 9 := by omega

theorem cellCol_lt (i : Nat) : i % 9 < 9 := by omega

theorem cellBox_lt {i : Nat} (h : i < 81) : cellBox i < 9 := by
  simp only [cellBox, box_index]
  omega

theorem boxCellIdx_lt {b t : Nat} (hb : b < 9) (ht : t < 9) : boxCellIdx b t < 81 := by
  simp only [boxCellIdx]
  omega

theorem cellBox_boxCellIdx {b t : Nat} (hb : b < 9) (ht : t < 9) :
    cellBox (boxCellIdx b t) = b := by
  simp only [cellBox, box_index, boxCellIdx]
  omega

theorem boxCellIdx_of_mem {i : Nat} (h : i < 81) :
    ∃ t, t < 9 ∧ boxCellIdx (cellBox i) t = i := by
  refine ⟨(i / 9 % 3) * 3 + i % 9 % 3, by omega, ?_⟩
  simp only [cellBox, box_index, boxCellIdx]
  omega

theorem row_of_pos {r c : Nat} (hr : r < 9) (hc : c < 9) :
    (r * 9 + c) / 9 = r ∧ (r * 9 + c) % 9 = c := by omega

/-! ## Search-state invariants -/

/-- Coherence of the three mask tables with the board, plus shape facts:
a digit bit is set in a row/column/box mask exactly when some cell of that
row/column/box holds the digit. -/
structure MaskOK (st : SState) : Prop where
  blen : st.board.length = 81
  rlen : st.rowU.length = 9
  clen : st.colU.length = 9
  xlen : st.boxU.length = 9
  vals : ∀ i, i < 81 → st.board.getD i 0 ≤ 9
  rows : ∀ r k, r < 9 → k < 9 →
    ((st.rowU.getD r 0).testBit k = true ↔
      ∃ c, c < 9 ∧ st.board.getD (r * 9 + c) 0 = k + 1)
  cols : ∀ c k, c < 9 → k < 9 →
    ((st.colU.getD c 0).testBit k = true ↔
      ∃ r, r < 9 ∧ st.board.getD (r * 9 + c) 0 = k + 1)
  boxs : ∀ b k, b < 9 → k < 9 →
    ((st.boxU.getD b 0).testBit k = true ↔
      ∃ t, t < 9 ∧ st.board.getD (boxCellIdx b t) 0 = k + 1)

/-- No two distinct cells of a row, column or box hold the same digit. -/
def NoDupCells (b : List Nat) : Prop :=
  ∀ i j, i < 81 → j < 81 → i ≠ j → b.getD i 0 ≠ 0 →
    (cellRow i = cellRow j ∨ cellCol i = cellCol j ∨ cellBox i = cellBox j) →
    b.getD i 0 ≠ b.getD j 0

/-- Full invariant of a search state. -/
def StInv (st : SState) : Prop := MaskOK st ∧ NoDupCells st.board

/-- A cell holding digit `d` forces the `d` bit in its row, column and box
masks. -/
theorem used_of_cell {st : SState} (hM : MaskOK st) {j d : Nat}
    (hj : j < 81) (hval : st.board.getD j 0 = d) (hd1 : 1 ≤ d) (hd9 : d ≤ 9) :
    (st.rowU.getD (j / 9) 0).testBit (d - 1) = true ∧
    (st.colU.getD (j % 9) 0).testBit (d - 1) = true ∧
    (st.boxU.getD (box_index (j / 9) (j % 9)) 0).testBit (d - 1) = true := by
  have hk : d - 1 + 1 = d := by omega
  refine ⟨?_, ?_, ?_⟩
  · rw [hM.rows (j / 9) (d - 1) (cellRow_lt hj) (by omega)]
    refine ⟨j % 9, cellCol_lt j, ?_⟩
    rw [show j / 9 * 9 + j % 9 = j from pos_row_col hj, hval, hk]
  · rw [hM.cols (j % 9) (d - 1) (cellCol_lt j) (by omega)]
    refine ⟨j / 9, cellRow_lt hj, ?_⟩
    rw [show j / 9 * 9 + j % 9 = j from pos_row_col hj, hval, hk]
  · rw [hM.boxs (box_index (j / 9) (j % 9)) (d - 1) (cellBox_lt hj) (by omega)]
    obtain ⟨t, ht, hteq⟩ := boxCellIdx_of_mem hj
    refine ⟨t, ht, ?_⟩
    rw [show cellBox j = box_index (j / 9) (j % 9) from rfl] at hteq
    rw [hteq, hval, hk]

/-- A digit whose bit lies in the candidate mask of cell `i` is held by no
cell sharing a row, column or box with `i`. -/
theorem cand_no_mate {st : SState} (hM : MaskOK st) {i d : Nat}
    (hi : i < 81) (hd1 : 1 ≤ d) (hd9 : d ≤ 9)
    (hbit : candMask st.rowU st.colU st.boxU i &&& bit d ≠ 0) :
    ∀ j, j < 81 →
      (j / 9 = i / 9 ∨ j % 9 = i % 9 ∨
        box_index (j / 9) (j % 9) = box_index (i / 9) (i % 9)) →
      st.board.getD j 0 ≠ d := by
  intro j hj hunit hval
  have htest := and_bit_ne_zero.mp hbit
  rw [candMask_testBit] at htest
  simp only [Bool.and_eq_true, decide_eq_true_eq, Bool.not_eq_true'] at htest
  rcases htest with ⟨_, hused⟩
  rw [Nat.testBit_or, Nat.testBit_or] at hused
  simp only [Bool.or_eq_false_iff] at hused
  rcases hused with ⟨⟨hr, hc⟩, hb⟩
  obtain ⟨hrow, hcol, hbox⟩ := used_of_cell hM hj hval hd1 hd9
  rcases hunit with h | h | h
  · rw [h] at hrow
    rw [hrow] at hr
    exact Bool.noConfusion hr
  · rw [h] at hcol
    rw [hcol] at hc
    exact Bool.noConfusion hc
  · rw [h] at hbox
    rw [hbox] at hb
    exact Bool.noConfusion hb

/-- Conversely, a digit bit present in the union mask of cell `i` is held
by a concrete cell sharing a row, column or box with `i`. -/
theorem mask_bit_to_cell {st : SState} (hM : MaskOK st) {i d : Nat}
    (hi : i < 81) (hd1 : 1 ≤ d) (hd9 : d ≤ 9)
    (hbit : (st.rowU.getD (i / 9) 0 ||| st.colU.getD (i % 9) 0 |||
      st.boxU.getD (box_index (i / 9) (i % 9)) 0).testBit (d - 1) = true) :
    ∃ j, j < 81 ∧ st.board.getD j 0 = d ∧
      (j / 9 = i / 9 ∨ j % 9 = i % 9 ∨
        box_index (j / 9) (j % 9) = box_index (i / 9) (i % 9)) := by
  have hk : d - 1 + 1 = d := by omega
  rw [Nat.testBit_or, Nat.testBit_or] at hbit
  rcases Bool.or_eq_true_iff.mp hbit with h2 | h3
  · rcases Bool.or_eq_true_iff.mp h2 with h4 | h5
    · obtain ⟨c, hc, hcell⟩ := (hM.rows (i / 9) (d - 1) (cellRow_lt hi) (by omega)).mp h4
      refine ⟨i / 9 * 9 + c, by omega, by rw [hcell, hk], Or.inl ?_⟩
      exact (row_of_pos (cellRow_lt hi) hc).1
    · obtain ⟨r, hr, hcell⟩ := (hM.cols (i % 9) (d - 1) (cellCol_lt i) (by omega)).mp h5
      refine ⟨r * 9 + i % 9, by omega, by rw [hcell, hk], Or.inr (Or.inl ?_)⟩
      exact (row_of_pos hr (cellCol_lt i)).2
  · obtain ⟨t, ht, hcell⟩ := (hM.boxs (box_index (i / 9) (i % 9)) (d - 1)
      (cellBox_lt hi) (by omega)).mp h3
    refine ⟨boxCellIdx (box_index (i / 9) (i % 9)) t,
      boxCellIdx_lt (cellBox_lt hi) ht, by rw [hcell, hk], Or.inr (Or.inr ?_)⟩
    exact cellBox_boxCellIdx (cellBox_lt hi) ht

/-! ## Invariant preservation by expansion -/

theorem getD_set_eq_or {b : List Nat} (i p d : Nat) (hi : i < b.length) :
    (b.set i d).getD p 0 = if p = i then d else b.getD p 0 := by
  by_cases h : p = i
  · subst h
    rw [getD_set_self _ _ _ hi, if_pos rfl]
  · rw [getD_set_ne _ _ (fun hh => h hh.symm), if_neg h]

theorem exists_cell_transfer {b : List Nat} {i d v : Nat} (hi : i < b.length)
    (h0 : b.getD i 0 = 0) (hv0 : v ≠ 0) (hvd : v ≠ d) (pos : Nat → Nat) :
    (∃ t, t < 9 ∧ (b.set i d).getD (pos t) 0 = v) ↔
      (∃ t, t < 9 ∧ b.getD (pos t) 0 = v) := by
  constructor
  · rintro ⟨t, ht, hval⟩
    refine ⟨t, ht, ?_⟩
    rw [getD_set_eq_or i (pos t) d hi] at hval
    by_cases h : pos t = i
    · rw [if_pos h] at hval
      exact absurd hval.symm hvd
    · rw [if_neg h] at hval
      exact hval
  · rintro ⟨t, ht, hval⟩
    refine ⟨t, ht, ?_⟩
    rw [getD_set_eq_or i (pos t) d hi]
    by_cases h : pos t = i
    · rw [h, h0] at hval
      exact absurd hval.symm hv0
    · rw [if_neg h]
      exact hval

theorem exists_cell_transfer_ne {b : List Nat} {i d v : Nat} (hi : i < b.length)
    (pos : Nat → Nat) (hne : ∀ t, t < 9 → pos t ≠ i) :
    (∃ t, t < 9 ∧ (b.set i d).getD (pos t) 0 = v) ↔
      (∃ t, t < 9 ∧ b.getD (pos t) 0 = v) := by
  constructor
  · rintro ⟨t, ht, hval⟩
    rw [getD_set_eq_or i (pos t) d hi, if_neg (hne t ht)] at hval
    exact ⟨t, ht, hval⟩
  · rintro ⟨t, ht, hval⟩
    refine ⟨t, ht, ?_⟩
    rw [getD_set_eq_or i (pos t) d hi, if_neg (hne t ht)]
    exact hval

/-- Every child state produced by expanding a blank cell satisfies the full
invariant again. -/
theorem childrenStates_inv {st : SState} (hI : StInv st) {i cand : Nat}
    (hi : i < 81) (h0 : st.board.getD i 0 = 0)
    (hcand : cand = candMask st.rowU st.colU st.boxU i) :
    ∀ ch ∈ childrenStates st i cand, StInv ch := by
  obtain ⟨hM, hND⟩ := hI
  intro ch hch
  obtain ⟨d, hd1, hd9, hbit, hguard, heq⟩ := mem_childrenStates.mp hch
  subst heq
  subst hcand
  have hilen : i < st.board.length := by rw [hM.blen]; exact hi
  have hrlt : i / 9 < 9 := cellRow_lt hi
  have hclt : i % 9 < 9 := cellCol_lt i
  have hblt : box_index (i / 9) (i % 9) < 9 := cellBox_lt hi
  have hrilen : i / 9 < st.rowU.length := by rw [hM.rlen]; exact hrlt
  have hcilen : i % 9 < st.colU.length := by rw [hM.clen]; exact hclt
  have hbilen : box_index (i / 9) (i % 9) < st.boxU.length := by rw [hM.xlen]; exact hblt
  have hnomate := cand_no_mate hM hi hd1 hd9 hbit
  constructor
  · -- MaskOK for the child
    refine ⟨by simpa using hM.blen, by simpa using hM.rlen,
      by simpa using hM.clen, by simpa using hM.xlen, ?_, ?_, ?_, ?_⟩
    · -- vals
      intro j hj
      rw [getD_set_eq_or i j d hilen]
      by_cases h : j = i
      · rw [if_pos h]
        exact hd9
      · rw [if_neg h]
        exact hM.vals j hj
    · -- rows
      intro r k hr hk
      show ((st.rowU.set (i / 9) (st.rowU.getD (i / 9) 0 ||| bit d)).getD r 0).testBit k
          = true ↔ _
      by_cases hri : r = i / 9
      · subst hri
        rw [getD_set_self _ _ _ hrilen, Nat.testBit_or, testBit_bit]
        by_cases hkd : k = d - 1
        · subst hkd
          have hkd1 : d - 1 + 1 = d := by omega
          constructor
          · intro _
            refine ⟨i % 9, hclt, ?_⟩
            rw [show i / 9 * 9 + i % 9 = i from pos_row_col hi,
              getD_set_self _ _ _ hilen, hkd1]
          · intro _
            simp
        · have hvd : k + 1 ≠ d := by omega
          have := exists_cell_transfer (d := d) hilen h0 (Nat.succ_ne_zero k) hvd
            (fun c => i / 9 * 9 + c)
          rw [this]
          have hdk : decide (d - 1 = k) = false := by
            simp only [decide_eq_false_iff_not]
            omega
          rw [hdk, Bool.or_false]
          exact hM.rows (i / 9) k hrlt hk
      · rw [getD_set_ne _ _ (fun hh => hri hh.symm)]
        have hne : ∀ c, c < 9 → r * 9 + c ≠ i := by
          intro c hc hcon
          apply hri
          rw [← hcon]
          exact ((row_of_pos hr hc).1).symm ▸ (row_of_pos hr hc).1
        rw [exists_cell_transfer_ne hilen (fun c => r * 9 + c) hne]
        exact hM.rows r k hr hk
    · -- cols
      intro c k hc hk
      show ((st.colU.set (i % 9) (st.colU.getD (i % 9) 0 ||| bit d)).getD c 0).testBit k
          = true ↔ _
      by_cases hci : c = i % 9
      · subst hci
        rw [getD_set_self _ _ _ hcilen, Nat.testBit_or, testBit_bit]
        by_cases hkd : k = d - 1
        · subst hkd
          have hkd1 : d - 1 + 1 = d := by omega
          constructor
          · intro _
            refine ⟨i / 9, hrlt, ?_⟩
            rw [show i / 9 * 9 + i % 9 = i from pos_row_col hi,
              getD_set_self _ _ _ hilen, hkd1]
          · intro _
            simp
        · have hvd : k + 1 ≠ d := by omega
          have := exists_cell_transfer (d := d) hilen h0 (Nat.succ_ne_zero k) hvd
            (fun r => r * 9 + i % 9)
          rw [this]
          have hdk : decide (d - 1 = k) = false := by
            simp only [decide_eq_false_iff_not]
            omega
          rw [hdk, Bool.or_false]
          exact hM.cols (i % 9) k hclt hk
      · rw [getD_set_ne _ _ (fun hh => hci hh.symm)]
        have hne : ∀ r, r < 9 → r * 9 + c ≠ i := by
          intro r hr hcon
          apply hci
          rw [← hcon]
          exact ((row_of_pos hr hc).2).symm
        rw [exists_cell_transfer_ne hilen (fun r => r * 9 + c) hne]
        exact hM.cols c k hc hk
    · -- boxes
      intro b k hb hk
      show ((st.boxU.set (box_index (i / 9) (i % 9))
          (st.boxU.getD (box_index (i / 9) (i % 9)) 0 ||| bit d)).getD b 0).testBit k
          = true ↔ _
      by_cases hbi : b = box_index (i / 9) (i % 9)
      · subst hbi
        rw [getD_set_self _ _ _ hbilen, Nat.testBit_or, testBit_bit]
        by_cases hkd : k = d - 1
        · subst hkd
          have hkd1 : d - 1 + 1 = d := by omega
          constructor
          · intro _
            obtain ⟨t, ht, hteq⟩ := boxCellIdx_of_mem hi
            refine ⟨t, ht, ?_⟩
            rw [show cellBox i = box_index (i / 9) (i % 9) from rfl] at hteq
            rw [hteq, getD_set_self _ _ _ hilen, hkd1]
          · intro _
            simp
        · have hvd : k + 1 ≠ d := by omega
          have := exists_cell_transfer (d := d) hilen h0 (Nat.succ_ne_zero k) hvd
            (boxCellIdx (box_index (i / 9) (i % 9)))
          rw [this]
          have hdk : decide (d - 1 = k) = false := by
            simp only [decide_eq_false_iff_not]
            omega
          rw [hdk, Bool.or_false]
          exact hM.boxs (box_index (i / 9) (i % 9)) k hblt hk
      · rw [getD_set_ne _ _ (fun hh => hbi hh.symm)]
        have hne : ∀ t, t < 9 → boxCellIdx b t ≠ i := by
          intro t ht hcon
          apply hbi
          have := cellBox_boxCellIdx hb ht
          rw [hcon] at this
          exact this.symm
        rw [exists_cell_transfer_ne hilen (boxCellIdx b) hne]
        exact hM.boxs b k hb hk
  · -- NoDupCells for the child board
    intro i1 j1 hi1 hj1 hne1 hnz hunit
    simp only [cellRow, cellCol, cellBox] at hunit
    rw [getD_set_eq_or i i1 d hilen] at hnz ⊢
    rw [getD_set_eq_or i j1 d hilen]
    by_cases h1 : i1 = i
    · rw [if_pos h1] at hnz ⊢
      by_cases h2 : j1 = i
      · exact absurd (h1.trans h2.symm) hne1
      · rw [if_neg h2]
        intro hcon
        subst h1
        exact hnomate j1 hj1 (by tauto) hcon.symm
    · rw [if_neg h1] at hnz ⊢
      by_cases h2 : j1 = i
      · rw [if_pos h2]
        intro hcon
        subst h2
        exact hnomate i1 hi1 (by tauto) hcon
      · rw [if_neg h2]
        exact hND i1 j1 hi1 hj1 hne1 hnz
          (by simp only [cellRow, cellCol, cellBox]; exact hunit)

/-! ## Frame preservation -/

/-- The cells already filled in `start` keep their values in a state. -/
def FrameOf (start : List Nat) (st : SState) : Prop :=
  ∀ i, i < 81 → start.getD i 0 ≠ 0 → st.board.getD i 0 = start.getD i 0

theorem childrenStates_frame {start : List Nat} {st : SState}
    (hF : FrameOf start st) {i cand : Nat}
    (hi : i < st.board.length) (h0 : st.board.getD i 0 = 0) :
    ∀ ch ∈ childrenStates st i cand, FrameOf start ch := by
  intro ch hch j hj hjnz
  obtain ⟨d, _, _, _, _, heq⟩ := mem_childrenStates.mp hch
  subst heq
  show (st.board.set i d).getD j 0 = start.getD j 0
  rw [getD_set_eq_or i j d hi]
  by_cases h : j = i
  · exfalso
    subst h
    rw [hF j hj hjnz] at h0
    exact hjnz h0
  · rw [if_neg h]
    exact hF j hj hjnz

/-! ## Initial constraint scan builds the invariant -/

/-- Mask coherence restricted to the first `n` cells of the board. -/
def PrefixMasks (cells ru cu bu : List Nat) (n : Nat) : Prop :=
  ru.length = 9 ∧ cu.length = 9 ∧ bu.length = 9 ∧
  (∀ r k, r < 9 → k < 9 → ((ru.getD r 0).testBit k = true ↔
    ∃ c, c < 9 ∧ r * 9 + c < n ∧ cells.getD (r * 9 + c) 0 = k + 1)) ∧
  (∀ c k, c < 9 → k < 9 → ((cu.getD c 0).testBit k = true ↔
    ∃ r, r < 9 ∧ r * 9 + c < n ∧ cells.getD (r * 9 + c) 0 = k + 1)) ∧
  (∀ b k, b < 9 → k < 9 → ((bu.getD b 0).testBit k = true ↔
    ∃ t, t < 9 ∧ boxCellIdx b t < n ∧ cells.getD (boxCellIdx b t) 0 = k + 1))

/-- Duplicate-freedom restricted to the first `n` cells of the board. -/
def PrefixNoDup (cells : List Nat) (n : Nat) : Prop :=
  ∀ i j, i < n → j < n → i < 81 → j < 81 → i ≠ j → cells.getD i 0 ≠ 0 →
    (i / 9 = j / 9 ∨ i % 9 = j % 9 ∨
      box_index (i / 9) (i % 9) = box_index (j / 9) (j % 9)) →
    cells.getD i 0 ≠ cells.getD j 0

theorem exists_bound_step {cells : List Nat} {n v k : Nat} (pos : Nat → Nat)
    (hv : cells.getD n 0 = v) (hvk : v ≠ k + 1) :
    (∃ t, t < 9 ∧ pos t < n + 1 ∧ cells.getD (pos t) 0 = k + 1) ↔
      (∃ t, t < 9 ∧ pos t < n ∧ cells.getD (pos t) 0 = k + 1) := by
  constructor
  · rintro ⟨t, ht, hlt, hval⟩
    refine ⟨t, ht, ?_, hval⟩
    rcases Nat.lt_or_ge (pos t) n with h | h
    · exact h
    · have hpn : pos t = n := by omega
      rw [hpn, hv] at hval
      exact absurd hval hvk
  · rintro ⟨t, ht, hlt, hval⟩
    exact ⟨t, ht, by omega, hval⟩

theorem scanCells_cons (v : Nat) (rest : List Nat) (idx : Nat) (ru cu bu : List Nat) :
    scanCells (v :: rest) idx ru cu bu =
      if v = 0 then scanCells rest (idx + 1) ru cu bu
      else if ru.getD (idx / 9) 0 &&& bit v ≠ 0 ∨ cu.getD (idx % 9) 0 &&& bit v ≠ 0 ∨
          bu.getD (box_index (idx / 9) (idx % 9)) 0 &&& bit v ≠ 0 then
        .error "Invalid puzzle: duplicates in row/col/box"
      else scanCells rest (idx + 1)
        (ru.set (idx / 9) (ru.getD (idx / 9) 0 ||| bit v))
        (cu.set (idx % 9) (cu.getD (idx % 9) 0 ||| bit v))
        (bu.set (box_index (idx / 9) (idx % 9))
          (bu.getD (box_index (idx / 9) (idx % 9)) 0 ||| bit v)) := rfl

theorem exists_bound_step_ne {cells : List Nat} {n k : Nat} (pos : Nat → Nat)
    (hne : ∀ t, t < 9 → pos t ≠ n) :
    (∃ t, t < 9 ∧ pos t < n + 1 ∧ cells.getD (pos t) 0 = k + 1) ↔
      (∃ t, t < 9 ∧ pos t < n ∧ cells.getD (pos t) 0 = k + 1) := by
  constructor
  · rintro ⟨t, ht, hlt, hval⟩
    have := hne t ht
    exact ⟨t, ht, by omega, hval⟩
  · rintro ⟨t, ht, hlt, hval⟩
    exact ⟨t, ht, by omega, hval⟩

theorem scanCells_nil (idx : Nat) (ru cu bu : List Nat) :
    scanCells [] idx ru cu bu = .ok (ru, cu, bu) := rfl

theorem scanCells_ok {cells : List Nat} (hlen : cells.length = 81)
    (hvals : ∀ i, i < 81 → cells.getD i 0 ≤ 9) (l : List Nat) :
    ∀ (idx : Nat) (ru cu bu : List Nat) (out : List Nat × List Nat × List Nat),
      cells.drop idx = l → idx ≤ 81 →
      PrefixMasks cells ru cu bu idx → PrefixNoDup cells idx →
      scanCells l idx ru cu bu = .ok out →
      PrefixMasks cells out.1 out.2.1 out.2.2 81 ∧ PrefixNoDup cells 81 := by
  induction l with
  | nil =>
    intro idx ru cu bu out hl hle hM hD hok
    have h81 : idx = 81 := by
      have := congrArg List.length hl
      simp [List.length_drop, hlen] at this
      omega
    subst h81
    rw [scanCells_nil] at hok
    injection hok with h
    subst h
    exact ⟨hM, hD⟩
  | cons v rest ih =>
    intro idx ru cu bu out hl hle hM hD hok
    obtain ⟨hidx, hv, hrest⟩ := drop_step hl
    rw [hlen] at hidx
    rw [scanCells_cons] at hok
    obtain ⟨hrl, hcl, hbl, hrows, hcols, hboxs⟩ := hM
    by_cases hv0 : v = 0
    · rw [if_pos hv0] at hok
      subst hv0
      apply ih (idx + 1) ru cu bu out hrest (by omega) _ _ hok
      · refine ⟨hrl, hcl, hbl, ?_, ?_, ?_⟩
        · intro r k hr hk
          rw [exists_bound_step (fun c => r * 9 + c) hv (by omega)]
          exact hrows r k hr hk
        · intro c k hc hk
          rw [exists_bound_step (fun r => r * 9 + c) hv (by omega)]
          exact hcols c k hc hk
        · intro b k hb hk
          rw [exists_bound_step (boxCellIdx b) hv (by omega)]
          exact hboxs b k hb hk
      · intro i1 j1 h1 h2 h3 h4 h5 h6 h7
        rcases Nat.lt_or_ge i1 idx with hi1 | hi1
        · rcases Nat.lt_or_ge j1 idx with hj1 | hj1
          · exact hD i1 j1 hi1 hj1 h3 h4 h5 h6 h7
          · have : j1 = idx := by omega
            subst this
            rw [hv]
            exact h6
        · have : i1 = idx := by omega
          subst this
          rw [hv] at h6
          exact absurd rfl h6
    · rw [if_neg hv0] at hok
      have hv1 : 1 ≤ v := by omega
      have hv9 : v ≤ 9 := by
        have := hvals idx hidx
        omega
      have hk1 : v - 1 + 1 = v := by omega
      by_cases hg : ru.getD (idx / 9) 0 &&& bit v ≠ 0 ∨
          cu.getD (idx % 9) 0 &&& bit v ≠ 0 ∨
          bu.getD (box_index (idx / 9) (idx % 9)) 0 &&& bit v ≠ 0
      · rw [if_pos hg] at hok
        exact absurd hok (by simp)
      · rw [if_neg hg] at hok
        push_neg at hg
        obtain ⟨hgr, hgc, hgb⟩ := hg
        have hrbit : (ru.getD (idx / 9) 0).testBit (v - 1) = false := by
          rw [Bool.eq_false_iff]
          intro ht
          exact absurd hgr (by simpa using and_bit_ne_zero.mpr ht)
        have hcbit : (cu.getD (idx % 9) 0).testBit (v - 1) = false := by
          rw [Bool.eq_false_iff]
          intro ht
          exact absurd hgc (by simpa using and_bit_ne_zero.mpr ht)
        have hbbit : (bu.getD (box_index (idx / 9) (idx % 9)) 0).testBit (v - 1)
            = false := by
          rw [Bool.eq_false_iff]
          intro ht
          exact absurd hgb (by simpa using and_bit_ne_zero.mpr ht)
        have hrlt : idx / 9 < 9 := cellRow_lt hidx
        have hclt : idx % 9 < 9 := cellCol_lt idx
        have hblt : box_index (idx / 9) (idx % 9) < 9 := cellBox_lt hidx
        have hnomate : ∀ j, j < idx → j < 81 →
            (j / 9 = idx / 9 ∨ j % 9 = idx % 9 ∨
              box_index (j / 9) (j % 9) = box_index (idx / 9) (idx % 9)) →
            cells.getD j 0 ≠ v := by
          intro j hjidx hj81 hunit hval
          rcases hunit with h | h | h
          · have hbitset : (ru.getD (idx / 9) 0).testBit (v - 1) = true := by
              rw [hrows (idx / 9) (v - 1) hrlt (by omega)]
              refine ⟨j % 9, cellCol_lt j, ?_, ?_⟩
              · rw [← h, pos_row_col hj81]
                exact hjidx
              · rw [← h, pos_row_col hj81, hval, hk1]
            rw [hrbit] at hbitset
            exact Bool.noConfusion hbitset
          · have hbitset : (cu.getD (idx % 9) 0).testBit (v - 1) = true := by
              rw [hcols (idx % 9) (v - 1) hclt (by omega)]
              refine ⟨j / 9, cellRow_lt hj81, ?_, ?_⟩
              · rw [← h, pos_row_col hj81]
                exact hjidx
              · rw [← h, pos_row_col hj81, hval, hk1]
            rw [hcbit] at hbitset
            exact Bool.noConfusion hbitset
          · have hbitset : (bu.getD (box_index (idx / 9) (idx % 9)) 0).testBit
                (v - 1) = true := by
              rw [hboxs (box_index (idx / 9) (idx % 9)) (v - 1) hblt (by omega)]
              obtain ⟨t, ht, hteq⟩ := boxCellIdx_of_mem hj81
              rw [show cellBox j = box_index (j / 9) (j % 9) from rfl] at hteq
              rw [h] at hteq
              exact ⟨t, ht, by rw [hteq]; exact hjidx, by rw [hteq, hval, hk1]⟩
            rw [hbbit] at hbitset
            exact Bool.noConfusion hbitset
        apply ih (idx + 1) _ _ _ out hrest (by omega) _ _ hok
        · refine ⟨by simpa using hrl, by simpa using hcl, by simpa using hbl,
            ?_, ?_, ?_⟩
          · intro r k hr hk
            by_cases hri : r = idx / 9
            · subst hri
              rw [getD_set_self _ _ _ (by rw [hrl]; exact hrlt),
                Nat.testBit_or, testBit_bit]
              by_cases hkd : k = v - 1
              · subst hkd
                rw [show decide (v - 1 = v - 1) = true from by simp, Bool.or_true]
                constructor
                · intro _
                  exact ⟨idx % 9, hclt, by rw [pos_row_col hidx]; omega,
                    by rw [pos_row_col hidx, hv, hk1]⟩
                · intro _
                  rfl
              · rw [show decide (v - 1 = k) = false from by
                  simp only [decide_eq_false_iff_not]; omega, Bool.or_false,
                  exists_bound_step (fun c => idx / 9 * 9 + c) hv (by omega)]
                exact hrows (idx / 9) k hrlt hk
            · rw [getD_set_ne _ _ (fun hh => hri hh.symm)]
              rw [exists_bound_step_ne (fun c => r * 9 + c) ?hne]
              · exact hrows r k hr hk
              case hne =>
                intro c hc hcon
                exact hri (by rw [← hcon, (row_of_pos hr hc).1])
          · intro c k hc hk
            by_cases hci : c = idx % 9
            · subst hci
              rw [getD_set_self _ _ _ (by rw [hcl]; exact hclt),
                Nat.testBit_or, testBit_bit]
              by_cases hkd : k = v - 1
              · subst hkd
                rw [show decide (v - 1 = v - 1) = true from by simp, Bool.or_true]
                constructor
                · intro _
                  exact ⟨idx / 9, hrlt, by rw [pos_row_col hidx]; omega,
                    by rw [pos_row_col hidx, hv, hk1]⟩
                · intro _
                  rfl
              · rw [show decide (v - 1 = k) = false from by
                  simp only [decide_eq_false_iff_not]; omega, Bool.or_false,
                  exists_bound_step (fun r => r * 9 + idx % 9) hv (by omega)]
                exact hcols (idx % 9) k hclt hk
            · rw [getD_set_ne _ _ (fun hh => hci hh.symm)]
              rw [exists_bound_step_ne (fun r => r * 9 + c) ?hne]
              · exact hcols c k hc hk
              case hne =>
                intro r hr hcon
                exact hci (by rw [← hcon, (row_of_pos hr hc).2])
          · intro b k hb hk
            by_cases hbi : b = box_index (idx / 9) (idx % 9)
            · subst hbi
              rw [getD_set_self _ _ _ (by rw [hbl]; exact hblt),
                Nat.testBit_or, testBit_bit]
              by_cases hkd : k = v - 1
              · subst hkd
                rw [show decide (v - 1 = v - 1) = true from by simp, Bool.or_true]
                constructor
                · intro _
                  obtain ⟨t, ht, hteq⟩ := boxCellIdx_of_mem hidx
                  rw [show cellBox idx = box_index (idx / 9) (idx % 9) from rfl]
                    at hteq
                  exact ⟨t, ht, by rw [hteq]; omega, by rw [hteq, hv, hk1]⟩
                · intro _
                  rfl
              · rw [show decide (v - 1 = k) = false from by
                  simp only [decide_eq_false_iff_not]; omega, Bool.or_false,
                  exists_bound_step (boxCellIdx (box_index (idx / 9) (idx % 9)))
                    hv (by omega)]
                exact hboxs (box_index (idx / 9) (idx % 9)) k hblt hk
            · rw [getD_set_ne _ _ (fun hh => hbi hh.symm)]
              rw [exists_bound_step_ne (boxCellIdx b) ?hne]
              · exact hboxs b k hb hk
              case hne =>
                intro t ht hcon
                apply hbi
                have := cellBox_boxCellIdx hb ht
                rw [hcon] at this
                rw [show cellBox idx = box_index (idx / 9) (idx % 9) from rfl]
                  at this
                exact this.symm
        · intro i1 j1 h1 h2 h3 h4 h5 h6 h7
          rcases Nat.lt_or_ge i1 idx with hi1 | hi1
          · rcases Nat.lt_or_ge j1 idx with hj1 | hj1
            · exact hD i1 j1 hi1 hj1 h3 h4 h5 h6 h7
            · have : j1 = idx := by omega
              subst this
              rw [hv]
              intro hcon
              exact hnomate i1 hi1 h3 h7 hcon
          · have : i1 = idx := by omega
            subst this
            rw [hv]
            intro hcon
            refine hnomate j1 (by omega) h4 ?_ hcon.symm
            tauto

theorem getD_replicate_zero (r : Nat) : (List.replicate 9 (0 : Nat)).getD r 0 = 0 := by
  rw [List.getD_eq_getElem?_getD, List.getElem?_replicate]
  by_cases h : r < 9
  · rw [if_pos h]
    rfl
  · rw [if_neg h]
    rfl

/-- A successful `SudokuBFS.__init__` establishes the full state invariant:
the masks agree with the board and the board has no duplicates. -/
theorem sudokuInit_ok_inv {cells : List Nat} {st : SState}
    (hvals : ∀ i, i < 81 → cells.getD i 0 ≤ 9)
    (h : sudokuInit cells = .ok st) :
    StInv st ∧ st.board = cells ∧ cells.length = 81 := by
  unfold sudokuInit at h
  by_cases hlen : cells.length = 81
  · rw [if_pos hlen] at h
    rcases hs : scanCells cells 0 (List.replicate 9 0) (List.replicate 9 0)
        (List.replicate 9 0) with e | ⟨ru, cu, bu⟩
    · rw [hs] at h
      exact absurd h (by simp)
    rw [hs] at h
    simp only [Except.ok.injEq] at h
    subst h
    have hstart : PrefixMasks cells (List.replicate 9 0) (List.replicate 9 0)
        (List.replicate 9 0) 0 := by
      refine ⟨by simp, by simp, by simp, ?_, ?_, ?_⟩
      · intro r k hr hk
        rw [getD_replicate_zero, Nat.zero_testBit]
        constructor
        · intro hcon
          exact Bool.noConfusion hcon
        · rintro ⟨c, _, hlt, _⟩
          omega
      · intro c k hc hk
        rw [getD_replicate_zero, Nat.zero_testBit]
        constructor
        · intro hcon
          exact Bool.noConfusion hcon
        · rintro ⟨r, _, hlt, _⟩
          omega
      · intro b k hb hk
        rw [getD_replicate_zero, Nat.zero_testBit]
        constructor
        · intro hcon
          exact Bool.noConfusion hcon
        · rintro ⟨t, _, hlt, _⟩
          omega
    have hstartD : PrefixNoDup cells 0 := by
      intro i j hi
      omega
    obtain ⟨⟨hrl, hcl, hbl, hrows, hcols, hboxs⟩, hD⟩ :=
      scanCells_ok hlen hvals cells 0 _ _ _ (ru, cu, bu) (by simp) (by omega)
        hstart hstartD hs
    refine ⟨⟨⟨hlen, hrl, hcl, hbl, hvals, ?_, ?_, ?_⟩, ?_⟩, rfl, hlen⟩
    · intro r k hr hk
      rw [hrows r k hr hk]
      constructor
      · rintro ⟨c, hc, _, hp⟩
        exact ⟨c, hc, hp⟩
      · rintro ⟨c, hc, hp⟩
        exact ⟨c, hc, by omega, hp⟩
    · intro c k hc hk
      rw [hcols c k hc hk]
      constructor
      · rintro ⟨r, hr, _, hp⟩
        exact ⟨r, hr, hp⟩
      · rintro ⟨r, hr, hp⟩
        exact ⟨r, hr, by omega, hp⟩
    · intro b k hb hk
      rw [hboxs b k hb hk]
      constructor
      · rintro ⟨t, ht, _, hp⟩
        exact ⟨t, ht, hp⟩
      · rintro ⟨t, ht, hp⟩
        exact ⟨t, ht, boxCellIdx_lt hb ht, hp⟩
    · intro i j hi hj hne hnz hunit
      simp only [cellRow, cellCol, cellBox] at hunit
      exact hD i j hi hj hi hj hne hnz hunit
  · rw [if_neg hlen] at h
    exact absurd h (by simp)

/-! ## Board validity: each digit once per row, column and box -/

/-- How many cells of row `r` hold digit `d`. -/
def rowCount (b : List Nat) (r d : Nat) : Nat :=
  ((Finset.range 9).filter (fun c => b.getD (r * 9 + c) 0 = d)).card

/-- How many cells of column `c` hold digit `d`. -/
def colCount (b : List Nat) (c d : Nat) : Nat :=
  ((Finset.range 9).filter (fun r => b.getD (r * 9 + c) 0 = d)).card

/-- How many cells of box `bx` hold digit `d`. -/
def boxCount (b : List Nat) (bx d : Nat) : Nat :=
  ((Finset.range 9).filter (fun t => b.getD (boxCellIdx bx t) 0 = d)).card

/-- A fully valid solved board: 81 cells and every digit appears exactly
once in every row, every column and every box. -/
def ValidBoard (b : List Nat) : Prop :=
  b.length = 81 ∧
  ∀ d, 1 ≤ d → d ≤ 9 →
    (∀ r, r < 9 → rowCount b r d = 1) ∧
    (∀ c, c < 9 → colCount b c d = 1) ∧
    (∀ bx, bx < 9 → boxCount b bx d = 1)

/-- `sol` completes `start`: 81 digits 1..9 preserving every filled cell. -/
def IsCompletionOf (sol start : List Nat) : Prop :=
  sol.length = 81 ∧
  ∀ i, i < 81 → 1 ≤ sol.getD i 0 ∧ sol.getD i 0 ≤ 9 ∧
    (start.getD i 0 ≠ 0 → sol.getD i 0 = start.getD i 0)

/-- The puzzle `start` has at least one valid completion. -/
def BoardSolvable (start : List Nat) : Prop :=
  ∃ sol, IsCompletionOf sol start ∧ ValidBoard sol

theorem boxCellIdx_inj {bx t1 t2 : Nat} (h1 : t1 < 9) (h2 : t2 < 9)
    (heq : boxCellIdx bx t1 = boxCellIdx bx t2) : t1 = t2 := by
  simp only [boxCellIdx] at heq
  omega

/-- Pigeonhole on a unit of nine cells: nine injective values in 1..9 hit
every digit exactly once. -/
theorem unit_count_one (g : Nat → Nat)
    (hv : ∀ t, t < 9 → 1 ≤ g t ∧ g t ≤ 9)
    (hinj : ∀ t1 t2, t1 < 9 → t2 < 9 → g t1 = g t2 → t1 = t2)
    {d : Nat} (hd1 : 1 ≤ d) (hd9 : d ≤ 9) :
    ((Finset.range 9).filter (fun t => g t = d)).card = 1 := by
  have hf : ∀ t : Fin 9, g t - 1 < 9 := by
    intro t
    have := hv t t.isLt
    omega
  let f : Fin 9 → Fin 9 := fun t => ⟨g t - 1, hf t⟩
  have hfinj : Function.Injective f := by
    intro a b hab
    have hval : g a - 1 = g b - 1 := congrArg Fin.val hab
    have ha := hv a a.isLt
    have hb := hv b b.isLt
    have : g a = g b := by omega
    exact Fin.ext (hinj a b a.isLt b.isLt this)
  have hfsurj : Function.Surjective f := Finite.injective_iff_surjective.mp hfinj
  obtain ⟨t0, ht0⟩ := hfsurj ⟨d - 1, by omega⟩
  have hgt0 : g t0 = d := by
    have hval : g t0 - 1 = d - 1 := congrArg Fin.val ht0
    have := hv t0 t0.isLt
    omega
  rw [Finset.card_eq_one]
  refine ⟨t0.val, ?_⟩
  ext x
  simp only [Finset.mem_filter, Finset.mem_range, Finset.mem_singleton]
  constructor
  · rintro ⟨hx9, hgx⟩
    have : g x = g t0 := by rw [hgx, hgt0]
    exact hinj x t0 hx9 t0.isLt this
  · rintro rfl
    exact ⟨t0.isLt, hgt0⟩

/-- A complete duplicate-free board is fully valid. -/
theorem valid_of_complete_nodup {b : List Nat} (hlen : b.length = 81)
    (hvals : ∀ i, i < 81 → 1 ≤ b.getD i 0 ∧ b.getD i 0 ≤ 9)
    (hND : NoDupCells b) : ValidBoard b := by
  refine ⟨hlen, fun d hd1 hd9 => ⟨?_, ?_, ?_⟩⟩
  · intro r hr
    apply unit_count_one (fun c => b.getD (r * 9 + c) 0)
    · intro t ht
      exact hvals (r * 9 + t) (by omega)
    · intro t1 t2 h1 h2 heq
      by_contra hne
      refine hND (r * 9 + t1) (r * 9 + t2) (by omega) (by omega)
        (by omega) ?_ ?_ heq
      · have := hvals (r * 9 + t1) (by omega)
        omega
      · left
        simp only [cellRow]
        omega
    · exact hd1
    · exact hd9
  · intro c hc
    apply unit_count_one (fun r => b.getD (r * 9 + c) 0)
    · intro t ht
      exact hvals (t * 9 + c) (by omega)
    · intro t1 t2 h1 h2 heq
      by_contra hne
      refine hND (t1 * 9 + c) (t2 * 9 + c) (by omega) (by omega)
        (by omega) ?_ ?_ heq
      · have := hvals (t1 * 9 + c) (by omega)
        omega
      · right
        left
        simp only [cellCol]
        omega
    · exact hd1
    · exact hd9
  · intro bx hbx
    apply unit_count_one (fun t => b.getD (boxCellIdx bx t) 0)
    · intro t ht
      exact hvals (boxCellIdx bx t) (boxCellIdx_lt hbx ht)
    · intro t1 t2 h1 h2 heq
      by_contra hne
      refine hND (boxCellIdx bx t1) (boxCellIdx bx t2)
        (boxCellIdx_lt hbx h1) (boxCellIdx_lt hbx h2)
        (fun hcon => hne (boxCellIdx_inj h1 h2 hcon)) ?_ ?_ heq
      · have := hvals (boxCellIdx bx t1) (boxCellIdx_lt hbx h1)
        omega
      · right
        right
        show cellBox (boxCellIdx bx t1) = cellBox (boxCellIdx bx t2)
        rw [cellBox_boxCellIdx hbx h1, cellBox_boxCellIdx hbx h2]
    · exact hd1
    · exact hd9

/-- A fully valid board has no duplicates within any unit. -/
theorem nodup_of_valid {sol : List Nat} (hV : ValidBoard sol)
    (hvals : ∀ i, i < 81 → 1 ≤ sol.getD i 0 ∧ sol.getD i 0 ≤ 9) :
    NoDupCells sol := by
  intro i j hi hj hne hnz hunit heq
  have hdi := hvals i hi
  have hdj := hvals j hj
  obtain ⟨_, hcnt⟩ := hV
  obtain ⟨hrow, hcol, hbox⟩ := hcnt (sol.getD i 0) (by omega) (by omega)
  rcases hunit with h | h | h
  · simp only [cellRow] at h
    have h1 : i % 9 ∈ (Finset.range 9).filter
        (fun c => sol.getD (i / 9 * 9 + c) 0 = sol.getD i 0) := by
      rw [Finset.mem_filter, Finset.mem_range]
      exact ⟨cellCol_lt i, by rw [pos_row_col hi]⟩
    have h2 : j % 9 ∈ (Finset.range 9).filter
        (fun c => sol.getD (i / 9 * 9 + c) 0 = sol.getD i 0) := by
      rw [Finset.mem_filter, Finset.mem_range]
      refine ⟨cellCol_lt j, ?_⟩
      rw [h, pos_row_col hj]
      exact heq.symm
    have hcc : i % 9 ≠ j % 9 := by
      intro hcon
      exact hne (by omega)
    have h2c : 1 < ((Finset.range 9).filter
        (fun c => sol.getD (i / 9 * 9 + c) 0 = sol.getD i 0)).card :=
      Finset.one_lt_card.mpr ⟨i % 9, h1, j % 9, h2, hcc⟩
    have := hrow (i / 9) (cellRow_lt hi)
    rw [rowCount] at this
    omega
  · simp only [cellCol] at h
    have h1 : i / 9 ∈ (Finset.range 9).filter
        (fun r => sol.getD (r * 9 + i % 9) 0 = sol.getD i 0) := by
      rw [Finset.mem_filter, Finset.mem_range]
      exact ⟨cellRow_lt hi, by rw [pos_row_col hi]⟩
    have h2 : j / 9 ∈ (Finset.range 9).filter
        (fun r => sol.getD (r * 9 + i % 9) 0 = sol.getD i 0) := by
      rw [Finset.mem_filter, Finset.mem_range]
      refine ⟨cellRow_lt hj, ?_⟩
      rw [h, pos_row_col hj]
      exact heq.symm
    have hcc : i / 9 ≠ j / 9 := by
      intro hcon
      exact hne (by omega)
    have h2c : 1 < ((Finset.range 9).filter
        (fun r => sol.getD (r * 9 + i % 9) 0 = sol.getD i 0)).card :=
      Finset.one_lt_card.mpr ⟨i / 9, h1, j / 9, h2, hcc⟩
    have := hcol (i % 9) (cellCol_lt i)
    rw [colCount] at this
    omega
  · obtain ⟨ti, hti, htieq⟩ := boxCellIdx_of_mem hi
    obtain ⟨tj, htj, htjeq⟩ := boxCellIdx_of_mem hj
    rw [← h] at htjeq
    have h1 : ti ∈ (Finset.range 9).filter
        (fun t => sol.getD (boxCellIdx (cellBox i) t) 0 = sol.getD i 0) := by
      rw [Finset.mem_filter, Finset.mem_range]
      exact ⟨hti, by rw [htieq]⟩
    have h2 : tj ∈ (Finset.range 9).filter
        (fun t => sol.getD (boxCellIdx (cellBox i) t) 0 = sol.getD i 0) := by
      rw [Finset.mem_filter, Finset.mem_range]
      exact ⟨htj, by rw [htjeq]; exact heq.symm⟩
    have hcc : ti ≠ tj := by
      intro hcon
      apply hne
      rw [← htieq, ← htjeq, hcon]
    have h2c : 1 < ((Finset.range 9).filter
        (fun t => sol.getD (boxCellIdx (cellBox i) t) 0 = sol.getD i 0)).card :=
      Finset.one_lt_card.mpr ⟨ti, h1, tj, h2, hcc⟩
    have := hbox (cellBox i) (cellBox_lt hi)
    rw [boxCount] at this
    omega

/-! ## Dead ends and solvable expansions -/

/-- A blank cell with empty candidate mask makes the whole state
unsolvable. -/
theorem dead_end_unsolvable {st : SState} (hI : StInv st) {i : Nat}
    (hi : i < 81) (h0 : st.board.getD i 0 = 0)
    (hcm : candMask st.rowU st.colU st.boxU i = 0) :
    ¬ BoardSolvable st.board := by
  obtain ⟨hM, hND⟩ := hI
  rintro ⟨sol, ⟨hslen, hsvals⟩, hV⟩
  obtain ⟨hd1, hd9, _⟩ := hsvals i hi
  set d := sol.getD i 0 with hd
  have hused : (st.rowU.getD (i / 9) 0 ||| st.colU.getD (i % 9) 0 |||
      st.boxU.getD (box_index (i / 9) (i % 9)) 0).testBit (d - 1) = true := by
    have hxz : ((st.rowU.getD (i / 9) 0 ||| st.colU.getD (i % 9) 0 |||
        st.boxU.getD (box_index (i / 9) (i % 9)) 0) &&& 0x1FF) = 0x1FF := by
      have := hcm
      rw [candMask] at this
      exact Nat.xor_eq_zero.mp this
    have h511 : (0x1FF : Nat) = 2 ^ 9 - 1 := by norm_num
    have := congrArg (fun x => x.testBit (d - 1)) hxz
    simp only [Nat.testBit_and, h511, Nat.testBit_two_pow_sub_one] at this
    have hdec : decide (d - 1 < 9) = true := by
      simp only [decide_eq_true_eq]
      omega
    rw [hdec, Bool.and_true] at this
    rw [this]
  obtain ⟨j, hj, hjval, hjunit⟩ := mask_bit_to_cell hM hi (by omega) (by omega) hused
  have hji : j ≠ i := by
    intro hcon
    rw [hcon, h0] at hjval
    omega
  have hsolj : sol.getD j 0 = d := by
    obtain ⟨_, _, hpres⟩ := hsvals j hj
    rw [hpres (by omega), hjval]
  have hNDsol := nodup_of_valid hV (fun k hk => ⟨(hsvals k hk).1, (hsvals k hk).2.1⟩)
  refine hNDsol i j hi hj (fun hcon => hji hcon.symm) (by omega) ?_ ?_
  · simp only [cellRow, cellCol, cellBox]
    tauto
  · rw [hsolj]

/-- A solvable state with a candidate-bearing blank cell has a solvable
child among its expansions. -/
theorem extension_solvable {st : SState} (hI : StInv st) {i cand : Nat}
    (hi : i < 81) (h0 : st.board.getD i 0 = 0)
    (hcand : cand = candMask st.rowU st.colU st.boxU i)
    (hsol : BoardSolvable st.board) :
    ∃ ch ∈ childrenStates st i cand, BoardSolvable ch.board := by
  obtain ⟨hM, hND⟩ := hI
  obtain ⟨sol, ⟨hslen, hsvals⟩, hV⟩ := hsol
  obtain ⟨hd1, hd9, _⟩ := hsvals i hi
  set d := sol.getD i 0 with hd
  have hNDsol := nodup_of_valid hV (fun k hk => ⟨(hsvals k hk).1, (hsvals k hk).2.1⟩)
  have hbit : cand &&& bit d ≠ 0 := by
    rw [hcand]
    apply and_bit_ne_zero.mpr
    rw [candMask_testBit]
    simp only [Bool.and_eq_true, decide_eq_true_eq, Bool.not_eq_true']
    refine ⟨by omega, ?_⟩
    rw [Bool.eq_false_iff]
    intro hused
    obtain ⟨j, hj, hjval, hjunit⟩ :=
      mask_bit_to_cell hM hi (by omega) (by omega) hused
    have hji : j ≠ i := by
      intro hcon
      rw [hcon, h0] at hjval
      omega
    have hsolj : sol.getD j 0 = d := by
      obtain ⟨_, _, hpres⟩ := hsvals j hj
      rw [hpres (by omega), hjval]
    refine hNDsol i j hi hj (fun hcon => hji hcon.symm) (by omega) ?_ ?_
    · simp only [cellRow, cellCol, cellBox]
      tauto
    · rw [hsolj]
  have hguard := @candMask_bit_not_used st.rowU st.colU st.boxU i d
    hd1 hd9 (by rw [← hcand]; exact hbit)
  have hilen : i < st.board.length := by rw [hM.blen]; exact hi
  refine ⟨⟨st.board.set i d,
      st.rowU.set (i / 9) (st.rowU.getD (i / 9) 0 ||| bit d),
      st.colU.set (i % 9) (st.colU.getD (i % 9) 0 ||| bit d),
      st.boxU.set (box_index (i / 9) (i % 9))
        (st.boxU.getD (box_index (i / 9) (i % 9)) 0 ||| bit d)⟩,
    mem_childrenStates.mpr ⟨d, hd1, hd9, hbit, hguard, rfl⟩, sol, ⟨hslen, ?_⟩, hV⟩
  intro j hj
  obtain ⟨h1, h2, h3⟩ := hsvals j hj
  refine ⟨h1, h2, ?_⟩
  intro hjnz
  show sol.getD j 0 = (st.board.set i d).getD j 0
  rw [getD_set_eq_or i j d hilen]
  by_cases hji : j = i
  · rw [if_pos hji, hji]
  · rw [if_neg hji]
    rw [getD_set_eq_or i j d hilen, if_neg hji] at hjnz
    exact h3 hjnz

/-! ## Soundness and completeness of the frontier loop -/

theorem solveLoopFuel_sound {start : List Nat} :
    ∀ (fuel : Nat) (q : List SState) (b : List Nat),
      (∀ st ∈ q, StInv st ∧ FrameOf start st) →
      solveLoopFuel fuel q = some (some b) →
      b.length = 81 ∧ (∀ i, i < 81 → 1 ≤ b.getD i 0 ∧ b.getD i 0 ≤ 9) ∧
      NoDupCells b ∧
      (∀ i, i < 81 → start.getD i 0 ≠ 0 → b.getD i 0 = start.getD i 0) := by
  intro fuel
  induction fuel with
  | zero =>
    intro q b hq h
    exact absurd h (by simp [solveLoopFuel])
  | succ f ih =>
    intro q b hq h
    cases q with
    | nil =>
      rw [show solveLoopFuel (f + 1) [] = some none from rfl] at h
      simp at h
    | cons st rest =>
      rw [solveLoopFuel_cons] at h
      obtain ⟨hInv, hFr⟩ := hq st (by simp)
      by_cases h1 : (chooseCell st.board st.rowU st.colU st.boxU).1 = -1
      · rw [if_pos h1] at h
        simp only [Option.some.injEq] at h
        subst h
        have hC : chooseCell st.board st.rowU st.colU st.boxU =
            (-1, (chooseCell st.board st.rowU st.colU st.boxU).2) := by
          rw [← h1]
        have hall := chooseCell_eq_neg_one hC
        obtain ⟨hM, hND⟩ := hInv
        refine ⟨hM.blen, ?_, hND, fun i hi hnz => hFr i hi hnz⟩
        intro i hi
        have hlt : i < st.board.length := by rw [hM.blen]; exact hi
        have := hall i hlt
        have := hM.vals i hi
        omega
      · rw [if_neg h1] at h
        rcases chooseCell_shape st.board st.rowU st.colU st.boxU with
          ⟨heq, _⟩ | ⟨i, heq, hlen, h0⟩
        · exact absurd (congrArg Prod.fst heq) (by simpa using h1)
        · by_cases h2 : (chooseCell st.board st.rowU st.colU st.boxU).2 = 0
          · rw [if_pos h2] at h
            exact ih rest b (fun s hs => hq s (by simp [hs])) h
          · rw [if_neg h2] at h
            apply ih _ b _ h
            intro s hs
            rcases List.mem_append.mp hs with hs1 | hs2
            · exact hq s (by simp [hs1])
            · have htn : (chooseCell st.board st.rowU st.colU st.boxU).1.toNat
                  = i := by rw [heq]; rfl
              have hcand : (chooseCell st.board st.rowU st.colU st.boxU).2
                  = candMask st.rowU st.colU st.boxU i := by rw [heq]
              rw [htn, hcand] at hs2
              have hi81 : i < 81 := by rw [← hInv.1.blen]; exact hlen
              exact ⟨childrenStates_inv hInv hi81 h0 rfl s hs2,
                childrenStates_frame hFr hlen h0 s hs2⟩

theorem solveLoopFuel_complete :
    ∀ (fuel : Nat) (q : List SState),
      (∀ st ∈ q, StInv st) →
      (∃ st ∈ q, BoardSolvable st.board) →
      solveLoopFuel fuel q ≠ some none := by
  intro fuel
  induction fuel with
  | zero =>
    intro q hq hex
    simp [solveLoopFuel]
  | succ f ih =>
    intro q hq hex
    cases q with
    | nil =>
      obtain ⟨st, hst, _⟩ := hex
      exact absurd hst (by simp)
    | cons st rest =>
      rw [solveLoopFuel_cons]
      by_cases h1 : (chooseCell st.board st.rowU st.colU st.boxU).1 = -1
      · rw [if_pos h1]
        simp
      · rw [if_neg h1]
        rcases chooseCell_shape st.board st.rowU st.colU st.boxU with
          ⟨heq, _⟩ | ⟨i, heq, hlen, h0⟩
        · exact absurd (congrArg Prod.fst heq) (by simpa using h1)
        · have hInv := hq st (by simp)
          have hi81 : i < 81 := by rw [← hInv.1.blen]; exact hlen
          by_cases h2 : (chooseCell st.board st.rowU st.colU st.boxU).2 = 0
          · rw [if_pos h2]
            have hcm : candMask st.rowU st.colU st.boxU i = 0 := by
              have := congrArg Prod.snd heq
              simp only at this
              rw [← this, h2]
            have hdead := dead_end_unsolvable hInv hi81 h0 hcm
            apply ih rest (fun s hs => hq s (by simp [hs]))
            obtain ⟨s, hs, hsolv⟩ := hex
            rcases List.mem_cons.mp hs with rfl | hs2
            · exact absurd hsolv hdead
            · exact ⟨s, hs2, hsolv⟩
          · rw [if_neg h2]
            have htn : (chooseCell st.board st.rowU st.colU st.boxU).1.toNat
                = i := by rw [heq]; rfl
            have hcand : (chooseCell st.board st.rowU st.colU st.boxU).2
                = candMask st.rowU st.colU st.boxU i := by rw [heq]
            rw [htn]
            apply ih
            · intro s hs
              rcases List.mem_append.mp hs with hs1 | hs2
              · exact hq s (by simp [hs1])
              · rw [hcand] at hs2
                exact childrenStates_inv hInv hi81 h0 rfl s hs2
            · obtain ⟨s, hs, hsolv⟩ := hex
              rcases List.mem_cons.mp hs with rfl | hs2
              · obtain ⟨ch, hch, hchs⟩ := extension_solvable hInv hi81 h0
                  hcand hsolv
                exact ⟨ch, List.mem_append_right _ hch, hchs⟩
              · exact ⟨s, List.mem_append_left _ hs2, hsolv⟩

/-! ## Top-level properties of `solve` -/

theorem all_nonzero_iff {b : List Nat} :
    (b.all (fun v => v != 0) = true) ↔ ∀ i, i < b.length → b.getD i 0 ≠ 0 := by
  rw [List.all_eq_true]
  constructor
  · intro h i hi
    have := h b[i] (List.getElem_mem hi)
    rw [getD_eq_getElem hi]
    simpa using this
  · intro h x hx
    obtain ⟨n, hn, rfl⟩ := List.mem_iff_getElem.mp hx
    have := h n hn
    rw [getD_eq_getElem hn] at this
    simpa using this

theorem sudokuInit_board {cells : List Nat} {st : SState}
    (h : sudokuInit cells = .ok st) : st.board = cells ∧ cells.length = 81 := by
  unfold sudokuInit at h
  by_cases hlen : cells.length = 81
  · rw [if_pos hlen] at h
    rcases hs : scanCells cells 0 (List.replicate 9 0) (List.replicate 9 0)
        (List.replicate 9 0) with e | ⟨ru, cu, bu⟩
    · rw [hs] at h
      exact absurd h (by simp)
    · rw [hs] at h
      simp only [Except.ok.injEq] at h
      rw [← h]
      exact ⟨rfl, hlen⟩
  · rw [if_neg hlen] at h
    exact absurd h (by simp)

/-- Master soundness fact: a board returned by `solve` on a validly
initialized engine is complete, in range, duplicate-free, and preserves
every pre-filled cell. -/
theorem solve_some_master {cells : List Nat} {st : SState} {b : List Nat}
    (hvals : ∀ i, i < 81 → cells.getD i 0 ≤ 9)
    (hinit : sudokuInit cells = .ok st)
    (hres : solve st = some b) :
    b.length = 81 ∧ (∀ i, i < 81 → 1 ≤ b.getD i 0 ∧ b.getD i 0 ≤ 9) ∧
    NoDupCells b ∧
    (∀ i, i < 81 → cells.getD i 0 ≠ 0 → b.getD i 0 = cells.getD i 0) := by
  obtain ⟨hI, hboard, hlen81⟩ := sudokuInit_ok_inv hvals hinit
  unfold solve at hres
  by_cases hall : st.board.all (fun v => v != 0) = true
  · rw [if_pos hall] at hres
    simp only [Option.some.injEq] at hres
    subst hres
    obtain ⟨hM, hND⟩ := hI
    have hnz := all_nonzero_iff.mp hall
    refine ⟨hM.blen, ?_, hND, ?_⟩
    · intro i hi
      have hlt : i < st.board.length := by rw [hM.blen]; exact hi
      have := hnz i hlt
      have := hM.vals i hi
      omega
    · intro i hi hnz2
      rw [hboard]
  · rw [if_neg hall] at hres
    rcases hs : solveLoopFuel (queueMeasure [st] + 1) [st] with _ | r
    · exact absurd hs (solveLoopFuel_ne_none _ _ (by omega))
    · rw [hs] at hres
      subst hres
      apply @solveLoopFuel_sound cells (queueMeasure [st] + 1) [st] b
        ?_ hs
      intro s hsq
      rcases List.mem_singleton.mp hsq with rfl
      refine ⟨hI, ?_⟩
      intro i hi hnz
      rw [hboard]

/-- Master completeness fact: `solve` answers `none` exactly when the
initial board has no valid completion. -/
theorem solve_none_master {cells : List Nat} {st : SState}
    (hvals : ∀ i, i < 81 → cells.getD i 0 ≤ 9)
    (hinit : sudokuInit cells = .ok st) :
    (solve st = none ↔ ¬ BoardSolvable cells) := by
  obtain ⟨hI, hboard, hlen81⟩ := sudokuInit_ok_inv hvals hinit
  constructor
  · intro hres hsolv
    unfold solve at hres
    by_cases hall : st.board.all (fun v => v != 0) = true
    · rw [if_pos hall] at hres
      exact absurd hres (by simp)
    · rw [if_neg hall] at hres
      rcases hs : solveLoopFuel (queueMeasure [st] + 1) [st] with _ | r
      · exact absurd hs (solveLoopFuel_ne_none _ _ (by omega))
      · rw [hs] at hres
        subst hres
        refine solveLoopFuel_complete (queueMeasure [st] + 1) [st] ?_ ?_ hs
        · intro s hsq
          rcases List.mem_singleton.mp hsq with rfl
          exact hI
        · refine ⟨st, by simp, ?_⟩
          rw [hboard]
          exact hsolv
  · intro hns
    rcases hr : solve st with _ | b
    · rfl
    · exfalso
      obtain ⟨hblen, hbvals, hbND, hbframe⟩ := solve_some_master hvals hinit hr
      apply hns
      refine ⟨b, ⟨hblen, ?_⟩, valid_of_complete_nodup hblen hbvals hbND⟩
      intro i hi
      obtain ⟨h1, h2⟩ := hbvals i hi
      exact ⟨h1, h2, fun hnz => hbframe i hi hnz⟩

/-! ## Characterization of `parse_grid` -/

/-- Value denoted by one accepted grid character: 0 for the blank markers,
otherwise the decimal value of the digit. -/
def charVal (ch : Char) : Nat :=
  if ch = '0' ∨ ch = '.' then 0 else (decDigitVal ch).getD 0

/-- The characters `parse_grid` actually accepts: the blank markers, or
any Unicode decimal digit whose value lies in 1..9 (this includes
non-ASCII digits such as the Arabic-Indic ones). -/
def AcceptedChar (ch : Char) : Prop :=
  ch = '.' ∨ ch = '0' ∨
    (1 ≤ (decDigitVal ch).getD 0 ∧ (decDigitVal ch).getD 0 ≤ 9)

instance decAcceptedChar (ch : Char) : Decidable (AcceptedChar ch) := by
  unfold AcceptedChar
  infer_instance

theorem getD_one_le_some {o : Option Nat} (h : 1 ≤ o.getD 0) :
    ∃ d, o = some d ∧ d = o.getD 0 := by
  cases o with
  | none => simp at h
  | some d => exact ⟨d, rfl, rfl⟩

theorem intStep_ok_iff (ch : Char) (v : Nat) :
    intStep ch = .ok v ↔
      (1 ≤ (decDigitVal ch).getD 0 ∧ (decDigitVal ch).getD 0 ≤ 9 ∧
        v = (decDigitVal ch).getD 0) := by
  unfold intStep
  cases hv : decDigitVal ch with
  | none =>
    simp
  | some d =>
    show (if 1 ≤ d ∧ d ≤ 9 then Except.ok d
        else Except.error "Digits must be 1..9") = Except.ok v ↔
      (1 ≤ (some d : Option Nat).getD 0 ∧ (some d : Option Nat).getD 0 ≤ 9 ∧
        v = (some d : Option Nat).getD 0)
    by_cases hb : 1 ≤ d ∧ d ≤ 9
    · rw [if_pos hb]
      simp only [Option.getD_some, Except.ok.injEq]
      constructor
      · intro h
        exact ⟨hb.1, hb.2, h.symm⟩
      · rintro ⟨_, _, rfl⟩
        rfl
    · rw [if_neg hb]
      simp only [Option.getD_some]
      constructor
      · intro h
        exact absurd h (by simp)
      · rintro ⟨h1, h2, _⟩
        exact absurd ⟨h1, h2⟩ hb

theorem parseCell_ok_iff (ch : Char) (v : Nat) :
    parseCell ch = .ok v ↔ (AcceptedChar ch ∧ v = charVal ch) := by
  unfold parseCell AcceptedChar charVal
  by_cases h0 : ch = '0' ∨ ch = '.'
  · rw [if_pos h0, if_pos h0]
    constructor
    · intro h
      simp only [Except.ok.injEq] at h
      refine ⟨?_, h.symm⟩
      rcases h0 with h0 | h0
      · exact Or.inr (Or.inl h0)
      · exact Or.inl h0
    · rintro ⟨_, rfl⟩
      rfl
  · rw [if_neg h0, if_neg h0]
    have hne0 : ch ≠ '0' := fun hcon => h0 (Or.inl hcon)
    have hnedot : ch ≠ '.' := fun hcon => h0 (Or.inr hcon)
    by_cases hd : pyIsDigit ch = true
    · rw [if_pos ⟨hd, hne0⟩, intStep_ok_iff]
      constructor
      · rintro ⟨h1, h2, h3⟩
        exact ⟨Or.inr (Or.inr ⟨h1, h2⟩), h3⟩
      · rintro ⟨hacc, rfl⟩
        rcases hacc with h | h | h
        · exact absurd h hnedot
        · exact absurd h hne0
        · exact ⟨h.1, h.2, rfl⟩
    · rw [if_neg (fun hcon => hd hcon.1)]
      constructor
      · intro h
        exact absurd h (by simp)
      · rintro ⟨hacc, _⟩
        rcases hacc with h | h | h
        · exact absurd h hnedot
        · exact absurd h hne0
        · obtain ⟨d, hdv, _⟩ := getD_one_le_some h.1
          refine absurd ?_ hd
          unfold pyIsDigit
          rw [hdv]
          simp

theorem parseChars_cons (ch : Char) (rest : List Char) :
    parseChars (ch :: rest) =
      match parseCell ch with
      | .error e => .error e
      | .ok v =>
        match parseChars rest with
        | .error e => .error e
        | .ok vs => .ok (v :: vs) := rfl

theorem parseChars_ok_iff (l : List Char) :
    ∀ vs : List Nat, parseChars l = .ok vs ↔
      ((∀ ch ∈ l, AcceptedChar ch) ∧ vs = l.map charVal) := by
  induction l with
  | nil =>
    intro vs
    constructor
    · intro h
      simp only [parseChars, Except.ok.injEq] at h
      exact ⟨by simp, h.symm⟩
    · rintro ⟨_, rfl⟩
      rfl
  | cons ch rest ih =>
    intro vs
    rw [parseChars_cons]
    rcases hpc : parseCell ch with e | v
    · constructor
      · intro h
        exact absurd h (by simp)
      · rintro ⟨hval, _⟩
        have := (parseCell_ok_iff ch (charVal ch)).mpr ⟨hval ch (by simp), rfl⟩
        rw [hpc] at this
        exact absurd this (by simp)
    · rcases hrest : parseChars rest with e | vs2
      · constructor
        · intro h
          exact absurd h (by simp)
        · rintro ⟨hval, _⟩
          have := (ih (rest.map charVal)).mpr
            ⟨fun c hc => hval c (by simp [hc]), rfl⟩
          rw [hrest] at this
          exact absurd this (by simp)
      · obtain ⟨hv1, hv2⟩ := (parseCell_ok_iff ch v).mp hpc
        obtain ⟨hr1, hr2⟩ := (ih vs2).mp hrest
        constructor
        · intro h
          simp only [Except.ok.injEq] at h
          subst h
          refine ⟨?_, by rw [List.map_cons, ← hv2, ← hr2]⟩
          intro c hc
          rcases List.mem_cons.mp hc with rfl | hc2
          · exact hv1
          · exact hr1 c hc2
        · rintro ⟨hval, rfl⟩
          rw [List.map_cons, ← hv2, ← hr2]

theorem flatten_length_nine : ∀ (l : List (List Char)),
    (∀ r ∈ l, r.length = 9) → l.flatten.length = l.length * 9 := by
  intro l
  induction l with
  | nil => simp
  | cons r t ih =>
    intro h
    rw [List.flatten_cons, List.length_append, h r (by simp),
      ih (fun s hs => h s (by simp [hs]))]
    simp
    ring

/-- Full characterization of `parse_grid`: success exactly on a 9-by-9
grid of accepted characters, returning the 81 row-major cell values. -/
theorem parse_grid_ok_iff (grid : List (List Char)) (vals : List Nat) :
    parse_grid grid = .ok vals ↔
      (grid.length = 9 ∧ (∀ r ∈ grid, r.length = 9) ∧
        (∀ ch ∈ grid.flatten, AcceptedChar ch) ∧
        vals.length = 81 ∧ vals = grid.flatten.map charVal) := by
  unfold parse_grid
  by_cases hshape : grid.length = 9 ∧ ∀ r ∈ grid, r.length = 9
  · rw [if_pos hshape, parseChars_ok_iff]
    constructor
    · rintro ⟨hv, rfl⟩
      refine ⟨hshape.1, hshape.2, hv, ?_, rfl⟩
      rw [List.length_map, flatten_length_nine grid hshape.2, hshape.1]
    · rintro ⟨_, _, hv, _, rfl⟩
      exact ⟨hv, rfl⟩
  · rw [if_neg hshape]
    constructor
    · intro h
      exact absurd h (by simp)
    · rintro ⟨h1, h2, _⟩
      exact absurd ⟨h1, h2⟩ hshape

/-! ## The only scan error is the duplicate report -/

theorem scanCells_error : ∀ (l : List Nat) (idx : Nat) (ru cu bu : List Nat)
    (e : String), scanCells l idx ru cu bu = .error e →
    e = "Invalid puzzle: duplicates in row/col/box" := by
  intro l
  induction l with
  | nil =>
    intro idx ru cu bu e h
    rw [scanCells_nil] at h
    exact absurd h (by simp)
  | cons v rest ih =>
    intro idx ru cu bu e h
    rw [scanCells_cons] at h
    by_cases hv : v = 0
    · rw [if_pos hv] at h
      exact ih _ _ _ _ _ h
    · rw [if_neg hv] at h
      by_cases hg : ru.getD (idx / 9) 0 &&& bit v ≠ 0 ∨
          cu.getD (idx % 9) 0 &&& bit v ≠ 0 ∨
          bu.getD (box_index (idx / 9) (idx % 9)) 0 &&& bit v ≠ 0
      · rw [if_pos hg] at h
        injection h with h2
        exact h2.symm
      · rw [if_neg hg] at h
        exact ih _ _ _ _ _ h

/-! ## Concrete boards used as witnesses -/

/-- A complete valid Sudoku board (shifted Latin-square pattern). -/
def fullBoard : List Nat :=
  [1,2,3,4,5,6,7,8,9, 4,5,6,7,8,9,1,2,3, 7,8,9,1,2,3,4,5,6,
   2,3,4,5,6,7,8,9,1, 5,6,7,8,9,1,2,3,4, 8,9,1,2,3,4,5,6,7,
   3,4,5,6,7,8,9,1,2, 6,7,8,9,1,2,3,4,5, 9,1,2,3,4,5,6,7,8]

/-- `fullBoard` with its last cell blanked. -/
def nearBoard : List Nat := fullBoard.set 80 0

/-- The engine state `sudokuInit` builds for `nearBoard`. -/
def nearState : SState :=
  ⟨nearBoard, [511,511,511,511,511,511,511,511,383],
    [511,511,511,511,511,511,511,511,383],
    [511,511,511,511,511,511,511,511,383]⟩

/-- The engine state `sudokuInit` builds for `fullBoard`. -/
def fullState : SState :=
  ⟨fullBoard, [511,511,511,511,511,511,511,511,511],
    [511,511,511,511,511,511,511,511,511],
    [511,511,511,511,511,511,511,511,511]⟩

/-- A duplicate-free board on which the scan meets a one-candidate blank
(cell 0) before a blank with an empty candidate set (cell 9). -/
def deadBoard : List Nat :=
  [0,1,2,3,4,5,6,7,8, 0,5,6,7,8,9,3,4,0] ++ List.replicate 63 0

/-- The engine state `sudokuInit` builds for `deadBoard`. -/
def deadState : SState :=
  ⟨deadBoard, [255,508,0,0,0,0,0,0,0], [0,17,34,68,136,272,36,72,128],
    [51,476,236,0,0,0,0,0,0]⟩

/-- `deadBoard` with cell 0 filled, so the empty-candidate cell 9 is the
first blank in scan order. -/
def deadBoard2 : List Nat :=
  [9,1,2,3,4,5,6,7,8, 0,5,6,7,8,9,3,4,0] ++ List.replicate 63 0

/-- The engine state `sudokuInit` builds for `deadBoard2`. -/
def deadState2 : SState :=
  ⟨deadBoard2, [511,508,0,0,0,0,0,0,0], [256,17,34,68,136,272,36,72,128],
    [307,476,236,0,0,0,0,0,0]⟩

/-- A board with two 5s in column 0 and all other cells blank. -/
def dupBoard : List Nat :=
  5 :: List.replicate 8 0 ++ 5 :: List.replicate 71 0

/-- An 8-row grid of blanks, malformed input for `parse_grid`. -/
def gridEight : List (List Char) := List.replicate 8 (List.replicate 9 '.')

/-- A well-shaped grid whose first character is the Arabic-Indic digit one
(U+0661), a character outside the claimed set of accepted characters. -/
def arabicGrid : List (List Char) :=
  ['١', '.', '.', '.', '.', '.', '.', '.', '.'] ::
    List.replicate 8 (List.replicate 9 '.')

/-! ## The claims -/

/-- Claim C1: for every valid initial 81-cell board, if `solve` returns a
board rather than `None`, that board has no blank cells and every row,
every column and every 3x3 box contains each digit 1-9 exactly once. -/
theorem claim_C1 {cells : List Nat} {st : SState} {b : List Nat}
    (hvals : ∀ i, i < 81 → cells.getD i 0 ≤ 9)
    (hinit : sudokuInit cells = .ok st)
    (hres : solve st = some b) :
    (∀ i, i < 81 → b.getD i 0 ≠ 0) ∧ ValidBoard b := by
  obtain ⟨hblen, hbvals, hbND, _⟩ := solve_some_master hvals hinit hres
  refine ⟨?_, valid_of_complete_nodup hblen hbvals hbND⟩
  intro i hi
  have := hbvals i hi
  omega

theorem claim_C1_witness :
    (∀ i, i < 81 → nearBoard.getD i 0 ≤ 9) ∧
    sudokuInit nearBoard = .ok nearState ∧
    solve nearState = some fullBoard ∧
    ((∀ i, i < 81 → fullBoard.getD i 0 ≠ 0) ∧ ValidBoard fullBoard) :=
  ⟨by decide, rfl, by decide,
    @claim_C1 nearBoard nearState fullBoard (by decide) rfl (by decide)⟩

/-- Claim C2: for every valid initial 81-cell board, `solve` returns `None`
exactly when no completion of the board satisfies the row/column/box
uniqueness constraints: the search is exhaustive. -/
theorem claim_C2 {cells : List Nat} {st : SState}
    (hvals : ∀ i, i < 81 → cells.getD i 0 ≤ 9)
    (hinit : sudokuInit cells = .ok st) :
    solve st = none ↔ ¬ BoardSolvable cells :=
  solve_none_master hvals hinit

theorem claim_C2_witness :
    (∀ i, i < 81 → fullBoard.getD i 0 ≤ 9) ∧
    sudokuInit fullBoard = .ok fullState ∧
    (solve fullState = none ↔ ¬ BoardSolvable fullBoard) :=
  ⟨by decide, rfl,
    @claim_C2 fullBoard fullState (by decide) rfl⟩

/-- Claim C3: for every valid initial 81-cell board, if `solve` returns a
board, every cell that was non-blank in the input holds the same value in
the returned board. -/
theorem claim_C3 {cells : List Nat} {st : SState} {b : List Nat}
    (hvals : ∀ i, i < 81 → cells.getD i 0 ≤ 9)
    (hinit : sudokuInit cells = .ok st)
    (hres : solve st = some b) :
    ∀ i, i < 81 → cells.getD i 0 ≠ 0 → b.getD i 0 = cells.getD i 0 :=
  (solve_some_master hvals hinit hres).2.2.2

theorem claim_C3_witness :
    (∀ i, i < 81 → nearBoard.getD i 0 ≤ 9) ∧
    sudokuInit nearBoard = .ok nearState ∧
    solve nearState = some fullBoard ∧
    (∀ i, i < 81 → nearBoard.getD i 0 ≠ 0 →
      fullBoard.getD i 0 = nearBoard.getD i 0) :=
  ⟨by decide, rfl, by decide,
    @claim_C3 nearBoard nearState fullBoard (by decide) rfl (by decide)⟩

/-- Claim C4: `solve` terminates.  The frontier loop reaches a genuine
outcome within the finite bound `queueMeasure` (out-of-fuel is never
returned), because every child state enqueued by an expansion has exactly
one fewer blank cell than its parent, so the variant strictly decreases
while the state space is finite. -/
theorem claim_C4 (st : SState) :
    solveLoopFuel (queueMeasure [st] + 1) [st] ≠ none ∧
    ∀ (i cand : Nat),
      chooseCell st.board st.rowU st.colU st.boxU = (Int.ofNat i, cand) →
      cand ≠ 0 → ∀ ch ∈ childrenStates st i cand,
        countBlanks ch.board + 1 = countBlanks st.board := by
  constructor
  · exact solveLoopFuel_ne_none _ _ (by omega)
  · intro i cand hc hcand ch hch
    obtain ⟨hlen, h0, _⟩ := chooseCell_eq_pos hc
    obtain ⟨d, hd1, _, hb⟩ := childrenStates_board hch
    rw [hb]
    exact countBlanks_set hlen h0 (by omega)

theorem claim_C4_witness :
    (chooseCell nearState.board nearState.rowU nearState.colU nearState.boxU
      = (Int.ofNat 80, 128)) ∧ (128 ≠ 0) ∧
    ∀ ch ∈ childrenStates nearState 80 128,
      countBlanks ch.board + 1 = countBlanks nearState.board :=
  ⟨by decide, by decide, (claim_C4 nearState).2 80 128 (by decide) (by decide)⟩

/-- Claim C5: any 81-cell digit board with two cells sharing a row, column
or box and holding the same assigned digit makes `sudokuInit` fail with the
duplicate-validation error, before any search begins. -/
theorem claim_C5 {cells : List Nat}
    (hlen : cells.length = 81) (hvals : ∀ i, i < 81 → cells.getD i 0 ≤ 9)
    {i j : Nat} (hi : i < 81) (hj : j < 81) (hij : i ≠ j)
    (hnz : cells.getD i 0 ≠ 0)
    (hunit : cellRow i = cellRow j ∨ cellCol i = cellCol j ∨
      cellBox i = cellBox j)
    (heq : cells.getD i 0 = cells.getD j 0) :
    sudokuInit cells = .error "Invalid puzzle: duplicates in row/col/box" := by
  rcases hs : scanCells cells 0 (List.replicate 9 0) (List.replicate 9 0)
      (List.replicate 9 0) with e | ⟨ru, cu, bu⟩
  · unfold sudokuInit
    rw [if_pos hlen, hs, scanCells_error _ _ _ _ _ _ hs]
  · exfalso
    have hinit : sudokuInit cells = .ok ⟨cells, ru, cu, bu⟩ := by
      unfold sudokuInit
      rw [if_pos hlen, hs]
    obtain ⟨⟨_, hND⟩, _, _⟩ := sudokuInit_ok_inv hvals hinit
    exact hND i j hi hj hij hnz hunit heq

theorem claim_C5_witness :
    dupBoard.length = 81 ∧ (∀ i, i < 81 → dupBoard.getD i 0 ≤ 9) ∧
    dupBoard.getD 0 0 ≠ 0 ∧ cellCol 0 = cellCol 9 ∧
    dupBoard.getD 0 0 = dupBoard.getD 9 0 ∧
    sudokuInit dupBoard = .error "Invalid puzzle: duplicates in row/col/box" :=
  ⟨by decide, by decide, by decide, by decide, by decide,
    @claim_C5 dupBoard (by decide) (by decide) 0 9
      (by decide) (by decide) (by decide) (by decide)
      (Or.inr (Or.inl (by decide))) (by decide)⟩

/-- Claim C6 (counterexample): `parse_grid` does not fail on every
character outside the set of ASCII digits 1-9 and the blank markers: on a
well-shaped grid containing the Arabic-Indic digit one (`'١'`, which is
none of `'.'`, `'0'`, `'1'`-`'9'`), Python's Unicode-aware `str.isdigit`
accepts it and `int` maps it to 1, so parsing succeeds. -/
theorem claim_C6_counterexample :
    ('١' ≠ '.' ∧ '١' ≠ '0' ∧ ¬('1' ≤ '١' ∧ '١' ≤ '9')) ∧
    arabicGrid.length = 9 ∧ (∀ r ∈ arabicGrid, r.length = 9) ∧
    '١' ∈ arabicGrid.flatten ∧
    parse_grid arabicGrid = .ok (1 :: List.replicate 80 0) :=
  ⟨by decide, by decide, by decide, by decide, rfl⟩

/-- Claim C6 (amended): `parse_grid` accepts exactly 9 rows of exactly 9
characters each, where every character is a blank marker (`'.'` or `'0'`)
or a Unicode decimal digit of value 1-9 (in the sense of Python's
`str.isdigit` and `int`, so non-ASCII decimal digits such as `'١'` are
accepted too); it fails with a validation error whenever the row count or
a row length is not 9 or any character is outside that set; on success it
returns the flat list of 81 integers with 0 for blanks and the digit's
decimal value otherwise. -/
theorem claim_C6 (grid : List (List Char)) (vals : List Nat) :
    (parse_grid grid = .ok vals ↔
      (grid.length = 9 ∧ (∀ r ∈ grid, r.length = 9) ∧
        (∀ ch ∈ grid.flatten, AcceptedChar ch) ∧
        vals.length = 81 ∧ vals = grid.flatten.map charVal)) ∧
    (¬(grid.length = 9 ∧ (∀ r ∈ grid, r.length = 9) ∧
        (∀ ch ∈ grid.flatten, AcceptedChar ch)) →
      ∃ e, parse_grid grid = .error e) := by
  refine ⟨parse_grid_ok_iff grid vals, ?_⟩
  intro hbad
  rcases hp : parse_grid grid with e | v
  · exact ⟨e, rfl⟩
  · exfalso
    obtain ⟨h1, h2, h3, _, _⟩ := (parse_grid_ok_iff grid v).mp hp
    exact hbad ⟨h1, h2, h3⟩

theorem claim_C6_witness :
    (¬(gridEight.length = 9 ∧ (∀ r ∈ gridEight, r.length = 9) ∧
        (∀ ch ∈ gridEight.flatten, AcceptedChar ch))) ∧
    (∃ e, parse_grid gridEight = .error e) :=
  ⟨by decide, (claim_C6 gridEight []).2 (by decide)⟩

/-- Claim C7: on a board with at least one blank cell, all of whose blank
cells have a non-empty candidate set, cell selection returns a blank cell
of globally minimal candidate count, ties broken by the first such cell in
row-major scan order (the scan may stop early at a one-candidate cell,
which cannot be beaten). -/
theorem claim_C7 {board ru cu bu : List Nat}
    (hne : ∀ j, j < board.length → board.getD j 0 = 0 →
      candMask ru cu bu j ≠ 0)
    (hex : ∃ j, j < board.length ∧ board.getD j 0 = 0) :
    ∃ i, chooseCell board ru cu bu = (Int.ofNat i, candMask ru cu bu i) ∧
      i < board.length ∧ board.getD i 0 = 0 ∧
      (∀ j, j < board.length → board.getD j 0 = 0 →
        popcount (candMask ru cu bu i) ≤ popcount (candMask ru cu bu j)) ∧
      (∀ j, j < i → board.getD j 0 = 0 →
        popcount (candMask ru cu bu i) < popcount (candMask ru cu bu j)) :=
  chooseCell_mrv hne hex

theorem claim_C7_witness :
    (∀ j, j < nearBoard.length → nearBoard.getD j 0 = 0 →
      candMask nearState.rowU nearState.colU nearState.boxU j ≠ 0) ∧
    (∃ j, j < nearBoard.length ∧ nearBoard.getD j 0 = 0) ∧
    (∃ i, chooseCell nearBoard nearState.rowU nearState.colU nearState.boxU
        = (Int.ofNat i, candMask nearState.rowU nearState.colU nearState.boxU i) ∧
      i < nearBoard.length ∧ nearBoard.getD i 0 = 0 ∧
      (∀ j, j < nearBoard.length → nearBoard.getD j 0 = 0 →
        popcount (candMask nearState.rowU nearState.colU nearState.boxU i) ≤
          popcount (candMask nearState.rowU nearState.colU nearState.boxU j)) ∧
      (∀ j, j < i → nearBoard.getD j 0 = 0 →
        popcount (candMask nearState.rowU nearState.colU nearState.boxU i) <
          popcount (candMask nearState.rowU nearState.colU nearState.boxU j))) :=
  ⟨by decide, by decide,
    @claim_C7 nearBoard nearState.rowU nearState.colU nearState.boxU
      (by decide) (by decide)⟩

/-- Claim C8 (counterexample): on `deadBoard`, a validly initialized state,
cell 9 is blank with an empty candidate set, yet cell selection does not
report a dead end: the scan stops first at the one-candidate cell 0 and
returns a non-empty mask. -/
theorem claim_C8_counterexample :
    sudokuInit deadBoard = .ok deadState ∧
    9 < deadBoard.length ∧ deadBoard.getD 9 0 = 0 ∧
    candMask deadState.rowU deadState.colU deadState.boxU 9 = 0 ∧
    (chooseCell deadState.board deadState.rowU deadState.colU
      deadState.boxU).2 ≠ 0 :=
  ⟨rfl, by decide, by decide, by decide, by decide⟩

/-- Claim C8 (amended): if the row-major scan reaches a blank cell with an
empty candidate set before any blank cell with exactly one candidate, cell
selection returns that cell with an empty candidate mask, and the solve
loop then discards the state without expanding it. -/
theorem claim_C8_amended {board ru cu bu : List Nat} {i0 : Nat}
    (hi0 : i0 < board.length) (h0 : board.getD i0 0 = 0)
    (hcand0 : candMask ru cu bu i0 = 0)
    (hpre : ∀ j, j < i0 → board.getD j 0 = 0 →
      candMask ru cu bu j ≠ 0 ∧ popcount (candMask ru cu bu j) ≠ 1) :
    chooseCell board ru cu bu = (Int.ofNat i0, 0) ∧
    ∀ (fuel : Nat) (rest : List SState),
      solveLoopFuel (fuel + 1) (⟨board, ru, cu, bu⟩ :: rest) =
        solveLoopFuel fuel rest := by
  have hc := chooseCell_first_dead hi0 h0 hcand0 hpre
  refine ⟨hc, ?_⟩
  intro fuel rest
  rw [solveLoopFuel_cons]
  show (if (chooseCell board ru cu bu).1 = -1 then _
    else if (chooseCell board ru cu bu).2 = 0 then _ else _) = _
  rw [hc]
  have hne : (i0 : Int) ≠ -1 := by omega
  rw [if_neg (show ¬((Int.ofNat i0, (0 : Nat)).1 = -1) from hne),
    if_pos (show ((Int.ofNat i0, (0 : Nat)).2 = 0) from rfl)]

theorem claim_C8_amended_witness :
    9 < deadBoard2.length ∧ deadBoard2.getD 9 0 = 0 ∧
    candMask deadState2.rowU deadState2.colU deadState2.boxU 9 = 0 ∧
    (∀ j, j < 9 → deadBoard2.getD j 0 = 0 →
      candMask deadState2.rowU deadState2.colU deadState2.boxU j ≠ 0 ∧
      popcount (candMask deadState2.rowU deadState2.colU deadState2.boxU j)
        ≠ 1) ∧
    chooseCell deadBoard2 deadState2.rowU deadState2.colU deadState2.boxU
      = (Int.ofNat 9, 0) :=
  ⟨by decide, by decide, by decide, by decide,
    (@claim_C8_amended deadBoard2 deadState2.rowU deadState2.colU
      deadState2.boxU 9 (by decide) (by decide) (by decide) (by decide)).1⟩

/-- Claim C9: a fully assigned constraint-satisfying board is returned
unchanged by `solve`, via the quick already-solved check alone, without
entering the frontier loop. -/
theorem claim_C9 {cells : List Nat} {st : SState}
    (hinit : sudokuInit cells = .ok st)
    (hfull : ∀ i, i < 81 → cells.getD i 0 ≠ 0) :
    solve st = some cells := by
  obtain ⟨hboard, hlen⟩ := sudokuInit_board hinit
  have hall : st.board.all (fun v => v != 0) = true := by
    apply all_nonzero_iff.mpr
    rw [hboard, hlen]
    exact hfull
  unfold solve
  rw [if_pos hall, hboard]

theorem claim_C9_witness :
    sudokuInit fullBoard = .ok fullState ∧
    (∀ i, i < 81 → fullBoard.getD i 0 ≠ 0) ∧
    solve fullState = some fullBoard :=
  ⟨rfl, by decide,
    @claim_C9 fullBoard fullState rfl (by decide)⟩

/-- Claim C10: the defensive re-check in child generation is unreachable:
every digit whose bit lies in the candidate mask returned by cell selection
is absent from the row, column and box used masks of the selected cell, so
the guarded skip never fires. -/
theorem claim_C10 {st : SState} {i cand d : Nat}
    (hc : chooseCell st.board st.rowU st.colU st.boxU = (Int.ofNat i, cand))
    (hd1 : 1 ≤ d) (hd9 : d ≤ 9)
    (hbit : cand &&& bit d ≠ 0) :
    ¬(st.rowU.getD (i / 9) 0 &&& bit d ≠ 0 ∨
      st.colU.getD (i % 9) 0 &&& bit d ≠ 0 ∨
      st.boxU.getD (box_index (i / 9) (i % 9)) 0 &&& bit d ≠ 0) := by
  obtain ⟨_, _, hm⟩ := chooseCell_eq_pos hc
  subst hm
  exact candMask_bit_not_used hd1 hd9 hbit

theorem claim_C10_witness :
    chooseCell nearState.board nearState.rowU nearState.colU nearState.boxU
      = (Int.ofNat 80, 128) ∧ (1 ≤ 8 ∧ 8 ≤ 9) ∧ 128 &&& bit 8 ≠ 0 ∧
    ¬(nearState.rowU.getD (80 / 9) 0 &&& bit 8 ≠ 0 ∨
      nearState.colU.getD (80 % 9) 0 &&& bit 8 ≠ 0 ∨
      nearState.boxU.getD (box_index (80 / 9) (80 % 9)) 0 &&& bit 8 ≠ 0) :=
  ⟨by decide, by decide, by decide,
    @claim_C10 nearState 80 128 8
      (by decide) (by decide) (by decide) (by decide)⟩
